import Mathlib

/-!
# Verification of the foster-btree core against its specification

This file gives a shallow embedding, in Lean 4, of the core algorithms of the
foster-btree repository: the poor man's normalized key (PMNK) extraction and the
key-value encoders of `encoding.h`, the binary search of `search.h`, the slotted
page of `slot_array.h`, the node-level insert/find of `node_refactored.h` and
`kv_array.h`, the record mover of `move_records.h`, the foster-node metadata and
rebalance of `node_foster.h`, and the adoption operation of `adoption.h`.

Machine integers are modelled as `Nat` with explicit truncation (`% 2 ^ w`)
where the C++ code can overflow or underflow; bytes are `Fin 256`; fallible
operations return the mutated state together with a success flag, exactly like
their C++ counterparts, and thrown exceptions are modelled as a dedicated
result constructor.  Fuel arguments stand for C++ `while` loops; every caller
passes fuel that provably dominates the loop bound.
-/

namespace foster

/-- A byte, the unit of the page heap and of encoded keys and values. -/
abbrev Byte := Fin 256

/-- Build a byte from a natural number (the low 8 bits, as a C++ `char` cast). -/
def byteOf (n : Nat) : Byte := ⟨n % 256, Nat.mod_lt _ (by decide)⟩

/-!
## PMNK extraction (`encoding.h`, `PoormanPrefixing`)

`PoormanPrefixing<string, PMNK_Type>` copies the first `sizeof(PMNK_Type)`
bytes of the key into a buffer that was zeroed when the key is shorter, and
then swaps endianness; the resulting integer is the big-endian value of the
first `p` key bytes padded with zero bytes on the right.  We transcribe that
value recursively: each missing byte contributes `0`.
-/

/-- PMNK of a byte-string key with a `p`-byte PMNK type
(`PoormanPrefixing<string, PMNK_Type>::operator()`). -/
def get_pmnk_string : Nat → List Byte → Nat
  | 0, _ => 0
  | _ + 1, [] => 0
  | p + 1, b :: bs => b.val * 256 ^ p + get_pmnk_string p bs

/-- PMNK of a scalar key of `kBytes` bytes with a `pBytes`-byte PMNK type
(`PoormanPrefixing<K, PMNK_Type>::operator()`): the double endianness swap
extracts the `pBytes` most significant bytes of the key, i.e. a right shift
by `kBytes - pBytes` bytes. -/
def get_pmnk_scalar (kBytes pBytes : Nat) (key : Nat) : Nat :=
  key / 256 ^ (kBytes - pBytes)

/-- Lexicographic strict order on byte strings: the semantics of C++
`std::string::operator<` (`char_traits<char>::compare`, i.e. `memcmp` order). -/
def str_lt : List Byte → List Byte → Bool
  | _, [] => false
  | [], _ :: _ => true
  | a :: as, b :: bs => decide (a.val < b.val) || (a == b && str_lt as bs)

/-- Weak counterpart of `str_lt`. -/
def str_le (a b : List Byte) : Bool := !(str_lt b a)

/-!
## Little-endian scalar serialization

`memcpy(dest, &value, sizeof(V))` on the (little-endian) target writes the
value bytes least significant first; this is the layout `DefaultEncoder` and
the slot array rely on.
-/

/-- The `w` little-endian bytes of `v` (`memcpy` of a `w`-byte scalar). -/
def to_bytes_le : Nat → Nat → List Byte
  | 0, _ => []
  | w + 1, v => byteOf v :: to_bytes_le w (v / 256)

/-- Read a little-endian scalar back from a byte list. -/
def from_bytes_le : List Byte → Nat
  | [] => 0
  | b :: bs => b.val + 256 * from_bytes_le bs

/-- Read a `w`-byte little-endian scalar at the head of `l`
(`memcpy(&value, src, w)`). -/
def read_scalar (w : Nat) (l : List Byte) : Nat := from_bytes_le (l.take w)

/-!
## `DefaultEncoder` (`encoding.h`)

We transcribe the two configurations the claims cite:

* `DefaultEncoder<string, string, PMNK_Type>` (lines 383-436): the payload is
  the 16-bit length of the key, the key bytes, the 16-bit length of the value,
  and the value bytes.  The 16-bit length field truncates (`*(LengthType*)buf =
  key.length()` on a `uint16_t`).
* the generic scalar `DefaultEncoder<K, V, PMNK_Type>` (lines 191-246): when
  `K` and `PMNK_Type` coincide the payload holds only the value and the key is
  recovered from the PMNK hint; otherwise the payload is the key bytes followed
  by the value bytes.
-/

/-- `uint16_t` truncation of a length. -/
def uint16_of (n : Nat) : Nat := n % 65536

/-- The two little-endian bytes of a `uint16_t` length field. -/
def encode_uint16 (n : Nat) : List Byte := to_bytes_le 2 n

/-- `DefaultEncoder<string, string, P>::get_payload_length(key, value)`. -/
def encSS_payload_length_kv (key value : List Byte) : Nat :=
  2 * 2 + key.length + value.length

/-- `DefaultEncoder<string, string, P>::encode`. -/
def encSS_encode (key value : List Byte) : List Byte :=
  encode_uint16 key.length ++ key ++ encode_uint16 value.length ++ value

/-- `DefaultEncoder<string, string, P>::get_payload_length(void*)`:
read the two length fields from an encoded payload. -/
def encSS_payload_length (payload : List Byte) : Nat :=
  let klen := read_scalar 2 payload
  let vlen := read_scalar 2 ((payload.drop (2 + klen)))
  klen + vlen + 2 * 2

/-- `DefaultEncoder<string, string, P>::decode` (both out-parameters given). -/
def encSS_decode (src : List Byte) : List Byte × List Byte :=
  let klen := read_scalar 2 src
  let key := (src.drop 2).take klen
  let vsrc := src.drop (2 + klen)
  let vlen := read_scalar 2 vsrc
  (key, (vsrc.drop 2).take vlen)

/-- `DefaultEncoder<string, V, P>::get_payload_length(key, value)` for a scalar
value of `w` bytes distinct from the PMNK type. -/
def encSV_payload_length_kv (w : Nat) (key : List Byte) : Nat :=
  w + 2 + key.length

/-- `DefaultEncoder<string, V, P>::encode` for a scalar value of `w` bytes. -/
def encSV_encode (w : Nat) (key : List Byte) (value : Nat) : List Byte :=
  encode_uint16 key.length ++ key ++ to_bytes_le w value

/-- `DefaultEncoder<string, V, P>::get_payload_length(void*)`. -/
def encSV_payload_length (w : Nat) (payload : List Byte) : Nat :=
  (read_scalar 2 payload + 2) + w

/-- `DefaultEncoder<string, V, P>::decode` for a scalar value of `w` bytes. -/
def encSV_decode (w : Nat) (src : List Byte) : List Byte × Nat :=
  let klen := read_scalar 2 src
  let key := (src.drop 2).take klen
  (key, read_scalar w (src.drop (2 + klen)))

/-- Generic scalar `DefaultEncoder<K, V, P>::encode`: the key bytes are present
exactly when `K` and `P` differ (`kPresent`). -/
def encScalar_encode (kPresent : Bool) (wK wV : Nat) (key value : Nat) : List Byte :=
  (if kPresent then to_bytes_le wK key else []) ++ to_bytes_le wV value

/-- Generic scalar `DefaultEncoder<K, V, P>::get_payload_length`. -/
def encScalar_payload_length (kPresent : Bool) (wK wV : Nat) : Nat :=
  (if kPresent then wK else 0) + wV

/-- Generic scalar `DefaultEncoder<K, V, P>::decode` with the PMNK hint:
when the key is not in the payload it is recovered from the hint. -/
def encScalar_decode (kPresent : Bool) (wK wV : Nat) (src : List Byte) (pmnk : Nat) :
    Nat × Nat :=
  if kPresent then (read_scalar wK src, read_scalar wV (src.drop wK))
  else (pmnk, read_scalar wV src)

/-!
## Binary search (`search.h`, `BinarySearch::operator()`)

Direct transcription of the `while (begin <= end)` loop.  The out-parameter
`ret` is threaded explicitly: it keeps its previous value when the loop exits
through the `begin <= end` test.  The `fuel` argument bounds the loop; the
measure `e + 1 - b` strictly decreases at every iteration, so any fuel larger
than `e + 1 - b` computes the exact C++ result.
-/

/-- One run of the `BinarySearch` loop over the PMNK column `arr`, searching
`key` on the closed range `[b, e]`, with current out-value `ret`. -/
def binary_search : Nat → List Nat → Nat → Nat → Nat → Nat → Nat × Bool
  | 0, _, _, _, _, ret => (ret, false)
  | fuel + 1, arr, key, b, e, ret =>
    if b ≤ e then
      let mid := b + (e - b) / 2
      if mid = arr.length then (mid, false)
      else
        let midKey := arr.getD mid 0
        if key = midKey then (mid, true)
        else if key < midKey then
          if mid = 0 then (0, false)
          else binary_search fuel arr key b (mid - 1) ret
        else
          if b = e then (mid + 1, false)
          else binary_search fuel arr key (mid + 1) e (mid + 1)
    else (ret, false)

/-- `BinarySearch` as invoked by the node layer: range `[0, slot_count]`,
with enough fuel for the whole loop. -/
def binary_search_full (arr : List Nat) (key : Nat) : Nat × Bool :=
  binary_search (arr.length + 2) arr key 0 arr.length 0

/-!
## The slotted page (`slot_array.h`, `SlotArray`)

A page is a slot vector growing from the low end and a heap of fixed-size
payload blocks growing from the high end.  We model the heap as the byte
array `heap` (of length `payloadCount * align`), the slot vector as the list
`slots`, and the header field `payload_begin` as `payloadBegin`; `slot_end`
is `slots.length`.  The compile-time template parameters are gathered in
`PageParams`.

C++ unsigned index arithmetic that cannot underflow on well-formed pages is
written with truncated `Nat` subtraction; the places where the C++ code can
genuinely wrap (`SlotNumber` underflow in `KeyValueArray::find_slot`) are
modelled with explicit `% 2 ^ 16` arithmetic at their call site.
-/

/-- Compile-time geometry of a `SlotArray`: payload block size (`Alignment`),
number of payload blocks (`PayloadCount`) and `sizeof(Slot)`. -/
structure PageParams where
  align : Nat
  payloadCount : Nat
  slotSize : Nat
deriving DecidableEq

/-- One entry of the slot vector: PMNK, payload block pointer, ghost bit. -/
structure Slot where
  key : Nat
  ptr : Nat
  ghost : Bool
deriving DecidableEq

/-- Default slot used for reads of uninitialized slot memory. -/
def Slot.dflt : Slot := ⟨0, 0, false⟩

/-- The mutable state of a `SlotArray`. -/
structure Page where
  slots : List Slot
  payloadBegin : Nat
  heap : List Byte
deriving DecidableEq

/-- A fresh page: empty slot vector, `payload_begin = PayloadCount`, zeroed
heap bytes (`SlotArray::SlotArray`). -/
def Page.empty (P : PageParams) : Page :=
  ⟨[], P.payloadCount, List.replicate (P.payloadCount * P.align) 0⟩

/-- `SlotArray::get_payload_count`: blocks needed for `length` bytes. -/
def get_payload_count (P : PageParams) (length : Nat) : Nat :=
  length / P.align + if length % P.align ≠ 0 then 1 else 0

/-- `SlotArray::free_space`: bytes between the slot vector and the heap. -/
def free_space (P : PageParams) (p : Page) : Nat :=
  p.payloadBegin * P.align - p.slots.length * P.slotSize

/-- Read `n` heap bytes starting at byte offset `off`. -/
def read_range (l : List Byte) (off n : Nat) : List Byte :=
  (l.drop off).take n

/-- Overwrite the heap bytes starting at byte offset `off` with `xs`,
clipping at the end of the heap (all in-range in actual use). -/
def write_range (l : List Byte) (off : Nat) (xs : List Byte) : List Byte :=
  l.take off ++ xs.take (l.length - off) ++ l.drop (off + xs.length)

/-- `SlotArray::allocate_payload`: reserve blocks at the low end of the heap.
Returns the page unchanged and `none` when free space is insufficient. -/
def allocate_payload (P : PageParams) (p : Page) (length : Nat) :
    Page × Option Nat :=
  let cnt := get_payload_count P length
  if free_space P p < cnt * P.align then (p, none)
  else ({ p with payloadBegin := p.payloadBegin - cnt }, some (p.payloadBegin - cnt))

/-- `SlotArray::shift_payloads`: block-level `memmove` from `src` to `dst`
over `count` blocks, with the slot-pointer fixup and the `payload_begin`
adjustment.  Fails (page unchanged) when a leftward shift overruns free
space.  Pointer adjustment `q + dst - src` is the C++ `q += (int)(dst - src)`
restricted to the in-range pointers the fixup is meant for. -/
def shift_payloads (P : PageParams) (p : Page) (dst src count : Nat) :
    Page × Bool :=
  if dst < src ∧ free_space P p < P.align * (src - dst) then (p, false)
  else
    let firstAff := min src dst
    let lastAff := max src dst + count - 1
    let heap' := write_range p.heap (dst * P.align)
      (read_range p.heap (src * P.align) (count * P.align))
    let slots' :=
      if 0 < count then
        p.slots.map fun s =>
          if firstAff ≤ s.ptr ∧ s.ptr ≤ lastAff then { s with ptr := s.ptr + dst - src }
          else s
      else p.slots
    let pb' := if firstAff ≤ p.payloadBegin then p.payloadBegin + dst - src
      else p.payloadBegin
    (⟨slots', pb', heap'⟩, true)

/-- `SlotArray::free_payload`: shift the blocks below `ptr` upward over the
freed blocks and raise `payload_begin`. -/
def free_payload (P : PageParams) (p : Page) (ptr length : Nat) : Page :=
  let shift := get_payload_count P length
  let count := ptr - p.payloadBegin
  (shift_payloads P p (p.payloadBegin + shift) p.payloadBegin count).1

/-- `SlotArray::allocate_end_payload`: reserve blocks adjacent to the top of
the heap by shifting every existing payload down. -/
def allocate_end_payload (P : PageParams) (p : Page) (length : Nat) :
    Page × Option Nat :=
  let cnt := get_payload_count P length
  if free_space P p < cnt * P.align then (p, none)
  else
    let last := P.payloadCount
    let first := p.payloadBegin
    ((shift_payloads P p (first - cnt) first (last - first)).1, some (last - cnt))

/-- `SlotArray::insert_slot`: make room for a new slot at `pos`; the new slot
holds uninitialized memory, which after the `memmove` is the previous content
of position `pos` (callers overwrite it immediately). -/
def insert_slot (P : PageParams) (p : Page) (pos : Nat) : Page × Bool :=
  if free_space P p < P.slotSize then (p, false)
  else ({ p with slots := p.slots.insertIdx pos (p.slots.getD pos Slot.dflt) }, true)

/-- `SlotArray::delete_slot`. -/
def delete_slot (p : Page) (pos : Nat) : Page :=
  { p with slots := p.slots.eraseIdx pos }

/-- `SlotArray::get_slot` (out-of-range reads yield the default slot; all
actual uses are in range). -/
def get_slot (p : Page) (pos : Nat) : Slot :=
  p.slots.getD pos Slot.dflt

/-- Assignment `node.get_slot(pos) = s`. -/
def set_slot (p : Page) (pos : Nat) (s : Slot) : Page :=
  { p with slots := p.slots.set pos s }

/-- The heap bytes from the payload of block pointer `ptr` to the end of the
page: the view `SlotArray::get_payload` returns (decoders read a prefix). -/
def payload_bytes (P : PageParams) (p : Page) (ptr : Nat) : List Byte :=
  p.heap.drop (ptr * P.align)

/-- `memcpy(get_payload(ptr), xs, xs.length)`. -/
def write_payload (P : PageParams) (p : Page) (ptr : Nat) (xs : List Byte) : Page :=
  { p with heap := write_range p.heap (ptr * P.align) xs }

/-!
## The node layer (`node_refactored.h`, `Node`; `kv_array.h`, `KeyValueArray`)

The C++ node layer is a class template over the key type, the value type, the
search policy and the encoder.  We mirror the template parameters: the key
comparisons (`==`, `<` on `K`) are gathered in `KeyOps`, the encoder policy in
`EncoderType`.  A `V`-valued out-parameter that may be left untouched is
modelled as an `Option V` that is `none` exactly when the C++ code never wrote
through the pointer.
-/

/-- The `==` and `<` operators of the key type `K`. -/
structure KeyOps (K : Type) where
  eqb : K → K → Bool
  ltb : K → K → Bool

/-- The encoder policy: PMNK extraction, payload sizing, and (de)serialization
(`DefaultEncoder` and its specializations).  `decode` receives the payload
bytes and the PMNK hint of the slot. -/
structure EncoderType (K V : Type) where
  get_pmnk : K → Nat
  payload_length_kv : K → V → Nat
  payload_length : List Byte → Nat
  encode : K → V → List Byte
  decode : List Byte → Nat → K × V

/-- Key/value decoded from the payload of slot `i` with the slot's PMNK as
hint (`Node::read_slot`). -/
def read_slot {K V : Type} (P : PageParams) (E : EncoderType K V) (p : Page) (i : Nat) :
    K × V :=
  E.decode (payload_bytes P p (get_slot p i).ptr) (get_slot p i).key

/-- The sequential scan of `Node::find_slot` (`node_refactored.h`): decode full
keys as long as the PMNK matches.  Outcomes: exact match (`true`), or the
break-out slot (`false`).  The value out-parameter is overwritten by every
decode.  Fuel dominates `slot_count - slot`. -/
def find_walk {K V : Type} (P : PageParams) (KO : KeyOps K) (E : EncoderType K V)
    (p : Page) (key : K) (pmnk : Nat) (wantValue : Bool) :
    Nat → Nat → Option V → Nat × Bool × Option V
  | 0, slot, vout => (slot, false, vout)
  | fuel + 1, slot, vout =>
    let kv := read_slot P E p slot
    let vout' := if wantValue then some kv.2 else vout
    if KO.eqb kv.1 key then (slot, true, vout')
    else if KO.ltb key kv.1 then (slot, false, vout')
    else
      if p.slots.length ≤ slot + 1 then (slot + 1, false, vout')
      else if (get_slot p (slot + 1)).key = pmnk then
        find_walk P KO E p key pmnk wantValue fuel (slot + 1) vout'
      else (slot + 1, false, vout')

/-- `Node::find_slot` (`node_refactored.h`, `Sorted = true`): PMNK binary
search, sequential confirmation walk, and — when a value out-parameter is
given, the key was not found and `slot > 0` — decoding of the previous slot's
value.  Returns `(slot, found, value out-parameter)`. -/
def find_slot {K V : Type} (P : PageParams) (KO : KeyOps K) (E : EncoderType K V)
    (p : Page) (key : K) (wantValue : Bool) : Nat × Bool × Option V :=
  let pmnk := E.get_pmnk key
  let bs := binary_search_full (p.slots.map (·.key)) pmnk
  let w :=
    if bs.2 then find_walk P KO E p key pmnk wantValue (p.slots.length + 1) bs.1 none
    else (bs.1, false, none)
  if w.2.1 then w
  else if wantValue ∧ 0 < w.1 then
    let slot := w.1 - 1
    (slot, false, some (read_slot P E p slot).2)
  else w

/-- Outcome of the `KeyValueArray::find_slot` confirmation walk
(`kv_array.h`): exact hit, immediate `return false`, or fall-through to the
previous-slot branch. -/
inductive KvWalkOut
  | hit
  | retFalse
  | fall
deriving DecidableEq

/-- The confirmation walk of `KeyValueArray::find_slot`: unlike the
refactored version it `return false`s (skipping the previous-slot branch) when
it walks past the key or past the last slot. -/
def kv_find_walk {K V : Type} (P : PageParams) (KO : KeyOps K) (E : EncoderType K V)
    (p : Page) (key : K) (pmnk : Nat) (wantValue : Bool) :
    Nat → Nat → Option V → Nat × KvWalkOut × Option V
  | 0, slot, vout => (slot, .fall, vout)
  | fuel + 1, slot, vout =>
    let kv := read_slot P E p slot
    let vout' := if wantValue then some kv.2 else vout
    if KO.eqb kv.1 key then (slot, .hit, vout')
    else if KO.ltb key kv.1 then (slot, .retFalse, vout')
    else
      if p.slots.length ≤ slot + 1 then (slot + 1, .retFalse, vout')
      else if (get_slot p (slot + 1)).key = pmnk then
        kv_find_walk P KO E p key pmnk wantValue fuel (slot + 1) vout'
      else (slot + 1, .fall, vout')

/-- `KeyValueArray::find_slot` (`kv_array.h`).  The previous-slot branch is
guarded only by `value && slot_count() > 0`; `slot--` is an unsigned 16-bit
decrement, so from `slot = 0` it produces `65535` and the subsequent
`get_payload_for_slot` reads an out-of-range slot, modelled as
`Except.error ()`. -/
def kv_find_slot {K V : Type} (P : PageParams) (KO : KeyOps K) (E : EncoderType K V)
    (p : Page) (key : K) (wantValue : Bool) :
    Except Unit (Nat × Bool × Option V) :=
  let pmnk := E.get_pmnk key
  let bs := binary_search_full (p.slots.map (·.key)) pmnk
  let w :=
    if bs.2 then kv_find_walk P KO E p key pmnk wantValue (p.slots.length + 1) bs.1 none
    else (bs.1, .fall, none)
  match w with
  | (slot, .hit, vout) => .ok (slot, true, vout)
  | (slot, .retFalse, vout) => .ok (slot, false, vout)
  | (slot, .fall, vout) =>
    if wantValue ∧ 0 < p.slots.length then
      let slot' := (slot + 65535) % 65536
      if slot' < p.slots.length then
        .ok (slot', false, some (read_slot P E p slot').2)
      else .error ()
    else .ok (slot, false, vout)

/-- Result of a node-level insertion: the `ExistentKeyException` throw, the
`full` condition (returned `false`), or success. -/
inductive InsResult
  | dup
  | full
  | inserted
deriving DecidableEq

/-- `Node::insert_key` (`node_refactored.h`, `Sorted = true`): find the
position, throw on exact match, allocate the payload, insert the slot (freeing
the payload again if that fails), fill in the slot. -/
def insert_key {K V : Type} (P : PageParams) (KO : KeyOps K) (E : EncoderType K V)
    (p : Page) (key : K) (plen : Nat) : Page × InsResult × Nat :=
  let f := find_slot P KO E p key false
  if f.2.1 then (p, .dup, f.1)
  else
    let slot := f.1
    match allocate_payload P p plen with
    | (p1, none) => (p1, .full, slot)
    | (p1, some payload) =>
      match insert_slot P p1 slot with
      | (p2, false) => (free_payload P p2 payload plen, .full, slot)
      | (p2, true) => (set_slot p2 slot ⟨E.get_pmnk key, payload, false⟩, .inserted, slot)

/-- `Node::insert` (`node_refactored.h`): `insert_key` followed by encoding
the pair into the reserved payload. -/
def node_insert {K V : Type} (P : PageParams) (KO : KeyOps K) (E : EncoderType K V)
    (p : Page) (key : K) (value : V) : Page × InsResult :=
  let plen := E.payload_length_kv key value
  match insert_key P KO E p key plen with
  | (p', .inserted, slot) =>
    (write_payload P p' (get_slot p' slot).ptr (E.encode key value), .inserted)
  | (p', r, _) => (p', r)

/-- `Node::find` with a value out-parameter. -/
def node_find {K V : Type} (P : PageParams) (KO : KeyOps K) (E : EncoderType K V)
    (p : Page) (key : K) : Bool × Option V :=
  let f := find_slot P KO E p key true
  (f.2.1, f.2.2)

/-!
## The record mover (`move_records.h`, `RecordMover::move_records`)

The copy loop, the rollback loop on failure, and the source deletion loop on
success, each with fuel dominating its iteration count.
-/

/-- The copy loop of `move_records`: returns the destination page, the final
values of the loop variables `i` and `j`, and the success flag. -/
def mr_copy {K V : Type} (P : PageParams) (E : EncoderType K V) :
    Nat → Page → Page → Nat → Nat → Nat → Page × Nat × Nat × Bool
  | 0, dest, _, i, j, _ => (dest, i, j, false)
  | fuel + 1, dest, src, i, j, last =>
    if i ≤ last then
      match insert_slot P dest j with
      | (dest1, false) => (dest1, i, j, false)
      | (dest1, true) =>
        let pbytes := payload_bytes P src (get_slot src i).ptr
        let length := E.payload_length pbytes
        match allocate_payload P dest1 length with
        | (dest2, none) => (delete_slot dest2 j, i, j, false)
        | (dest2, some pd) =>
          let s := get_slot src i
          let dest3 := set_slot dest2 j ⟨s.key, pd, s.ghost⟩
          let dest4 := write_payload P dest3 pd (pbytes.take length)
          mr_copy P E fuel dest4 src (i + 1) (j + 1) last
    else (dest, i, j, true)

/-- The rollback loop of `move_records`: free and delete the already copied
destination entries, from `j - 1` down to `dest_slot`. -/
def mr_rollback {K V : Type} (P : PageParams) (E : EncoderType K V) :
    Nat → Page → Nat → Nat → Page
  | 0, dest, _, _ => dest
  | fuel + 1, dest, j, dest_slot =>
    if dest_slot < j then
      let j' := j - 1
      let ptr := (get_slot dest j').ptr
      let len := E.payload_length (payload_bytes P dest ptr)
      mr_rollback P E fuel (delete_slot (free_payload P dest ptr len) j') j' dest_slot
    else dest

/-- The source deletion loop of `move_records`: free and delete the moved
source entries, from `i - 1` down to `src_slot`. -/
def mr_delete_src {K V : Type} (P : PageParams) (E : EncoderType K V) :
    Nat → Page → Nat → Nat → Page
  | 0, src, _, _ => src
  | fuel + 1, src, i, src_slot =>
    if src_slot < i then
      let i' := i - 1
      let ptr := (get_slot src i').ptr
      let len := E.payload_length (payload_bytes P src ptr)
      mr_delete_src P E fuel (delete_slot (free_payload P src ptr len) i') i' src_slot
    else src

/-- `RecordMover::move_records(dest, dest_slot, src, src_slot, slot_count)`
with `move = true`.  Returns `(dest, src, success)`. -/
def move_records {K V : Type} (P : PageParams) (E : EncoderType K V)
    (dest : Page) (dest_slot : Nat) (src : Page) (src_slot count : Nat) :
    Page × Page × Bool :=
  let last := src_slot + count - 1
  match mr_copy P E (count + 1) dest src src_slot dest_slot last with
  | (dest', i, j, success) =>
    if success then (dest', mr_delete_src P E (i + 1) src i src_slot, true)
    else (mr_rollback P E (j + 1) dest' j dest_slot, src, false)

/-!
## Well-formed pages, decoded record lists, encoder sanity

`RecordMover` and the rebalance operation rely on invariants that the C++
code maintains but never states: payloads live between `payload_begin` and
the end of the page, every record's encoded bytes fit inside its block
extent, distinct records occupy disjoint block extents, and the encoder
reads only the first `payload_length` bytes of a payload.  These are the
side conditions of the claims about `move_records` and `rebalance`.
-/

/-- The encoded length of the record whose payload starts at block `q`. -/
def rec_len {K V : Type} (P : PageParams) (E : EncoderType K V) (p : Page) (q : Nat) : Nat :=
  E.payload_length (p.heap.drop (q * P.align))

/-- The block extent of the record whose payload starts at block `q`. -/
def rec_cnt {K V : Type} (P : PageParams) (E : EncoderType K V) (p : Page) (q : Nat) : Nat :=
  get_payload_count P (rec_len P E p q)

/-- Page well-formedness: the heap has its fixed size, `payload_begin` is in
range, every record's block extent lies between `payload_begin` and the end
of the page, and distinct records have disjoint block extents. -/
def PageWF (P : PageParams) {K V : Type} (E : EncoderType K V) (p : Page) : Prop :=
  p.heap.length = P.payloadCount * P.align ∧
  p.payloadBegin ≤ P.payloadCount ∧
  (∀ s ∈ p.slots, p.payloadBegin ≤ s.ptr ∧ s.ptr + rec_cnt P E p s.ptr ≤ P.payloadCount) ∧
  List.Pairwise (fun a b =>
    a.ptr + rec_cnt P E p a.ptr ≤ b.ptr ∨ b.ptr + rec_cnt P E p b.ptr ≤ a.ptr) p.slots

/-- The decoded records of a page, in slot order (`read_slot` at every
index). -/
def slot_recs {K V : Type} (P : PageParams) (E : EncoderType K V) (p : Page) : List (K × V) :=
  p.slots.map fun s => E.decode (p.heap.drop (s.ptr * P.align)) s.key

/-- Observational page equality: same slot vector, same `payload_begin`, same
heap size, and the same heap bytes in the payload area (bytes below
`payload_begin` are free space, which the C++ code also leaves dirty). -/
def PageEquiv (P : PageParams) (p q : Page) : Prop :=
  p.slots = q.slots ∧ p.payloadBegin = q.payloadBegin ∧
  p.heap.length = q.heap.length ∧
  p.heap.drop (p.payloadBegin * P.align) = q.heap.drop (q.payloadBegin * P.align)

/-- Encoder sanity: `payload_length` and `decode` read only the first
`payload_length` bytes of the payload, and records are never empty.  Both
`DefaultEncoder` configurations satisfy it. -/
structure EncOK {K V : Type} (E : EncoderType K V) : Prop where
  plen_ext : ∀ (l₁ l₂ : List Byte) (m : Nat), E.payload_length l₁ ≤ m →
    l₁.take m = l₂.take m → E.payload_length l₂ = E.payload_length l₁
  dec_ext : ∀ (l₁ l₂ : List Byte) (pm m : Nat), E.payload_length l₁ ≤ m →
    l₁.take m = l₂.take m → E.decode l₂ pm = E.decode l₁ pm
  plen_pos : ∀ l, 0 < E.payload_length l

/-!
## Concrete key and encoder instantiations

The claims exercise the string-keyed configuration (`K = std::string`, PMNK
`uint16_t`): keys and values are byte strings encoded by
`DefaultEncoder<string, string, uint16_t>` on leaves, and node pointers are
8-byte scalars encoded by `DefaultEncoder<string, NodePointer, uint16_t>` on
branches.  Node pointers are modelled as numeric node ids with `0` for
`nullptr`.
-/

/-- `==` and `<` on `std::string`. -/
def KO_str : KeyOps (List Byte) := ⟨fun a b => a == b, str_lt⟩

/-- `DefaultEncoder<string, string, uint16_t>` as an `EncoderType`. -/
def E_leaf : EncoderType (List Byte) (List Byte) :=
  ⟨get_pmnk_string 2, encSS_payload_length_kv, encSS_payload_length,
    encSS_encode, fun l _ => encSS_decode l⟩

/-- `DefaultEncoder<string, NodePointer, uint16_t>` as an `EncoderType`
(8-byte pointer values). -/
def E_branch : EncoderType (List Byte) Nat :=
  ⟨get_pmnk_string 2, fun k _ => encSV_payload_length_kv 8 k, encSV_payload_length 8,
    encSV_encode 8, fun l _ => encSV_decode 8 l⟩

/-!
## The foster node layer (`node_foster.h`, `FosterNode` and
`FosterNodePayloads`)

A foster node is a page together with the `FosterNodePayloads` bookkeeping:
five payload pointers with valid bits (fields `LowKey = 0`, `HighKey = 1`,
`FosterKey = 2`, `FosterPtr = 3`, `Prefix = 4`) and the level byte.  The node
id stands for the C++ node address (`0` is `nullptr`).

The per-field encoder `Encoder<T>` of `FosterNode` is `foster::InlineEncoder`,
which is referenced by the tests but absent from `src/`.  Modelled from the
spec: fence and foster keys are serialized with their length (16-bit length
followed by the key bytes, §4.2's variable-length form), and node pointers as
fixed 8-byte scalars.
-/

/-- The `Encoder<T>` operations `set_foster_field`/`get_foster_field` need:
`get_payload_length(value)`, `encode`, `decode`. -/
structure FieldEnc (T : Type) where
  plen : T → Nat
  enc : T → List Byte
  dec : List Byte → T

/-- Modelled from the spec: `InlineEncoder` on a string key (16-bit length
followed by the key bytes); `InlineEncoder` itself is absent from `src/`. -/
def keyFE : FieldEnc (List Byte) :=
  ⟨fun k => 2 + k.length, fun k => encode_uint16 k.length ++ k,
    fun l => (l.drop 2).take (read_scalar 2 l)⟩

/-- Modelled from the spec: `InlineEncoder` on a node pointer (an 8-byte
scalar); `InlineEncoder` itself is absent from `src/`. -/
def ptrFE : FieldEnc Nat := ⟨fun _ => 8, to_bytes_le 8, read_scalar 8⟩

/-- `FosterNodePayloads` field indices. -/
def LowKey : Nat := 0

/-- `FosterNodePayloads` field indices. -/
def HighKey : Nat := 1

/-- `FosterNodePayloads` field indices. -/
def FosterKey : Nat := 2

/-- `FosterNodePayloads` field indices. -/
def FosterPtr : Nat := 3

/-- A node of the foster B-tree: slotted page plus `FosterNodePayloads`. -/
structure FNode where
  page : Page
  fosterPayloads : List Nat
  fosterValid : List Bool
  level : Nat
  id : Nat
deriving DecidableEq

/-- `FosterNodePayloads::shift_all_foster_payloads(p_diff)` with
`p_diff = oldc - newc` in signed C++ arithmetic. -/
def shift_all_fp (n : FNode) (oldc newc : Nat) : FNode :=
  let fp := List.zipWith (fun q v => if v then q + oldc - newc else q)
    n.fosterPayloads n.fosterValid
  { n with fosterPayloads := fp }

/-- `FosterNodePayloads::shift_foster_payloads(field, p_diff)`: adjust every
valid field whose payload is at or below the resized field's payload. -/
def shift_fp (n : FNode) (field : Nat) (oldc newc : Nat) : FNode :=
  let maxMove := n.fosterPayloads.getD field 0
  let fp := List.zipWith (fun q v => if v && decide (q ≤ maxMove) then q + oldc - newc else q)
    n.fosterPayloads n.fosterValid
  { n with fosterPayloads := fp }

/-- `FosterNode::get_foster_field`: decode the field's payload when valid. -/
def get_foster_field {T : Type} (P : PageParams) (FE : FieldEnc T) (n : FNode)
    (field : Nat) : Option T :=
  if n.fosterValid.getD field false then
    some (FE.dec (payload_bytes P n.page (n.fosterPayloads.getD field 0)))
  else none

/-- `FosterNode::set_foster_field`: allocate an end payload for a fresh field
(shifting every other foster payload down), or resize an existing field by
shifting the lower payload range, then encode the new value in place. -/
def set_foster_field {T : Type} (P : PageParams) (FE : FieldEnc T) (n : FNode)
    (field : Nat) (v : T) : FNode × Bool :=
  let valid := n.fosterValid.getD field false
  let old_length :=
    if valid then FE.plen (FE.dec (payload_bytes P n.page (n.fosterPayloads.getD field 0)))
    else 0
  let oldc := get_payload_count P old_length
  let new_length := FE.plen v
  let newc := get_payload_count P new_length
  if !valid then
    match allocate_end_payload P n.page new_length with
    | (_, none) => (n, false)
    | (pg, some payload) =>
      let n1 := shift_all_fp { n with page := pg } oldc newc
      let n2 := { n1 with fosterPayloads := n1.fosterPayloads.set field payload,
                          fosterValid := n1.fosterValid.set field true }
      ({ n2 with page := write_payload P n2.page payload (FE.enc v) }, true)
  else if oldc ≠ newc then
    let pfrom := n.page.payloadBegin
    let pto := pfrom + oldc - newc
    let pcount := n.fosterPayloads.getD field 0 - pfrom
    match shift_payloads P n.page pto pfrom pcount with
    | (_, false) => (n, false)
    | (pg, true) =>
      let n1 := shift_fp { n with page := pg } field oldc newc
      let pl := n1.fosterPayloads.getD field 0
      ({ n1 with page := write_payload P n1.page pl (FE.enc v) }, true)
  else
    let pl := n.fosterPayloads.getD field 0
    ({ n with page := write_payload P n.page pl (FE.enc v) }, true)

/-- `FosterNode::unset_foster_field`: free the field's payload and clear the
valid bit.  The freed length is computed through `Encoder<N>` — the encoder of
the *node pointer* type, regardless of the field's actual type, exactly as in
the source — so it is the 8-byte pointer length. -/
def unset_foster_field (P : PageParams) (n : FNode) (field : Nat) : FNode :=
  if n.fosterValid.getD field false then
    let payload := n.fosterPayloads.getD field 0
    let old_length := 8
    { n with page := free_payload P n.page payload old_length,
             fosterValid := n.fosterValid.set field false }
  else n

/-- `FosterNode::get_low_key` as an `Option` (`none` = infinity). -/
def get_low_key (P : PageParams) (n : FNode) : Option (List Byte) :=
  get_foster_field P keyFE n LowKey

/-- `FosterNode::get_high_key` as an `Option` (`none` = infinity). -/
def get_high_key (P : PageParams) (n : FNode) : Option (List Byte) :=
  get_foster_field P keyFE n HighKey

/-- `FosterNode::get_foster_key` as an `Option`. -/
def get_foster_key (P : PageParams) (n : FNode) : Option (List Byte) :=
  get_foster_field P keyFE n FosterKey

/-- `FosterNode::get_foster_child`: the field must be valid *and* non-null
(`return ret && value`). -/
def get_foster_child (P : PageParams) (n : FNode) : Option Nat :=
  match get_foster_field P ptrFE n FosterPtr with
  | some v => if v = 0 then none else some v
  | none => none

/-- `FosterNode::set_low_key`. -/
def set_low_key (P : PageParams) (n : FNode) (k : List Byte) : FNode × Bool :=
  set_foster_field P keyFE n LowKey k

/-- `FosterNode::set_high_key`. -/
def set_high_key (P : PageParams) (n : FNode) (k : List Byte) : FNode × Bool :=
  set_foster_field P keyFE n HighKey k

/-- `FosterNode::set_foster_key`. -/
def set_foster_key (P : PageParams) (n : FNode) (k : List Byte) : FNode × Bool :=
  set_foster_field P keyFE n FosterKey k

/-- `FosterNode::set_foster_child` (the value is the child's id, `0` for
`nullptr`). -/
def set_foster_child (P : PageParams) (n : FNode) (childId : Nat) : FNode × Bool :=
  set_foster_field P ptrFE n FosterPtr childId

/-- `FosterNode::unset_foster_child`: it only unsets the `FosterPtr` field. -/
def unset_foster_child (P : PageParams) (n : FNode) : FNode :=
  unset_foster_field P n FosterPtr

/-- `FosterNode::fence_contains`.  A `K low, high;` out-variable that the
getter leaves untouched is the default-constructed (empty) string, as in the
source. -/
def fence_contains (P : PageParams) (n : FNode) (key : List Byte) : Bool :=
  let lowOpt := get_low_key P n
  let highOpt := get_high_key P n
  let low := lowOpt.getD []
  let high := highOpt.getD []
  let lf := lowOpt.isSome
  let hf := highOpt.isSome
  (lf && hf && str_le low key && str_le key high) ||
  (str_le low key && !hf) ||
  (str_le key high && !lf) ||
  (!lf && !hf)

/-- `FosterNode::key_range_contains`. -/
def key_range_contains (P : PageParams) (n : FNode) (key : List Byte) : Bool :=
  if !fence_contains P n key then false
  else
    match get_foster_child P n with
    | some _ =>
      match get_foster_key P n with
      | some fk => str_lt key fk
      | none => true
    | none => true

/-- A freshly allocated, empty node (`BtreeNodeManager::construct_node`):
fresh page, all foster fields invalid, level 0. -/
def construct_node (P : PageParams) (id : Nat) : FNode :=
  ⟨Page.empty P, [0, 0, 0, 0, 0], [false, false, false, false, false], 0, id⟩

/-- `FosterNode::initialize`: reserve the foster-pointer field with a null
pointer and set the level. -/
def init_foster_node (P : PageParams) (n : FNode) (level : Nat) : FNode :=
  { (set_foster_child P n 0).1 with level := level }

/-- `FosterNode::add_foster_child(node, child)`: copy `node`'s high fence to
both of `child`'s fences, hand `node`'s foster key and pointer over to
`child`, and install `child` as `node`'s foster pointer (the foster key of
`node` is left as it was). -/
def add_foster_child (P : PageParams) (node child : FNode) : FNode × FNode :=
  let child1 :=
    match get_high_key P node with
    | some hk => (set_high_key P (set_low_key P child hk).1 hk).1
    | none => child
  let child2 :=
    match get_foster_key P node with
    | some fk => (set_foster_key P child1 fk).1
    | none => child1
  let child3 :=
    match get_foster_child P node with
    | some fp => (set_foster_child P child2 fp).1
    | none => child2
  ((set_foster_child P node child.id).1, child3)

/-- `FosterNode::rebalance(node)` acting on `node` and its foster child
`child`: move the upper half of the records into `child`, set `node`'s foster
key and `child`'s fences to the split key.  Returns the success flag of the
chain of operations the source asserts on. -/
def rebalance {V : Type} (P : PageParams) (E : EncoderType (List Byte) V)
    (node child : FNode) : FNode × FNode × Bool :=
  let slot_count := node.page.slots.length
  let split_slot := slot_count / 2
  let split_key := (read_slot P E node.page split_slot).1
  match move_records P E child.page 0 node.page split_slot (slot_count - split_slot) with
  | (cpage, npage, moved) =>
    if !moved then (node, { child with page := cpage }, false)
    else
      let node1 := { node with page := npage }
      let child1 := { child with page := cpage }
      match set_foster_key P node1 split_key with
      | (node2, okN) =>
        match set_low_key P child1 split_key with
        | (child2, okL) =>
          match get_high_key P node2 with
          | some hk =>
            match set_high_key P child2 hk with
            | (child3, okH) => (node2, child3, moved && okN && okL && okH)
          | none => (node2, child2, moved && okN && okL)

/-- `FosterNode::split(node, new_node)`. -/
def split {V : Type} (P : PageParams) (E : EncoderType (List Byte) V)
    (node new_node : FNode) : FNode × FNode × Bool :=
  let (n1, c1) := add_foster_child P node new_node
  rebalance P E n1 c1

/-- `FosterNode::all_keys_in_range`. -/
def all_keys_in_range {V : Type} (P : PageParams) (E : EncoderType (List Byte) V)
    (n : FNode) : Bool :=
  (List.range n.page.slots.length).all fun i =>
    key_range_contains P n (read_slot P E n.page i).1

/-!
## Adoption (`adoption.h`, `EagerAdoption`)

`try_adopt` first upgrades the latches; latching is outside this embedding, so
the model follows the successful-upgrade path (with latching disabled the C++
code takes the same path unconditionally).  `do_adopt` inserts the separator
`(foster_key, foster pointer)` into the parent, splitting the parent as long
as the insert reports `full`, and finally calls `unset_foster_child` on the
child.  Newly allocated parents are returned in an extra list; `nextId` is the
id supply of the node manager.
-/

/-- The `while (!inserted)` loop of `EagerAdoption::do_adopt`, fuel-bounded.
Returns the final parent, the other halves produced by splits, and whether the
insert eventually succeeded (`false` also models the `ExistentKeyException`
path, which the source would throw). -/
def adopt_insert_loop (P : PageParams) :
    Nat → FNode → List Byte → Nat → Nat → FNode × List FNode × Bool
  | 0, parent, _, _, _ => (parent, [], false)
  | fuel + 1, parent, fkey, fptr, nextId =>
    match node_insert P KO_str E_branch parent.page fkey fptr with
    | (pg, .inserted) => ({ parent with page := pg }, [], true)
    | (pg, .dup) => ({ parent with page := pg }, [], false)
    | (pg, .full) =>
      let parent1 := { parent with page := pg }
      let nn := construct_node P nextId
      let (p2, nn2, _ok) := split P E_branch parent1 nn
      let next := if key_range_contains P p2 fkey then (p2, nn2) else (nn2, p2)
      match adopt_insert_loop P fuel next.1 fkey fptr (nextId + 1) with
      | (pfin, more, ok) => (pfin, next.2 :: more, ok)

/-- `EagerAdoption::do_adopt(parent, child, foster)`: insert the separator
into the parent (splitting while full), then clear the child's foster
pointer.  Returns `(parent, child, new nodes, success)`. -/
def do_adopt (P : PageParams) (fuel : Nat) (parent child : FNode) (nextId : Nat) :
    FNode × FNode × List FNode × Bool :=
  let fkey := (get_foster_key P child).getD []
  let fptr := (get_foster_child P child).getD 0
  match adopt_insert_loop P fuel parent fkey fptr nextId with
  | (parent', extra, ok) =>
    if ok then (parent', unset_foster_child P child, extra, true)
    else (parent', child, extra, false)

/-- `EagerAdoption::try_adopt(parent, child)` along the successful-latching
path: nothing happens unless the child has a foster child. -/
def try_adopt (P : PageParams) (fuel : Nat) (parent child : FNode) (nextId : Nat) :
    FNode × FNode × List FNode × Bool :=
  match get_foster_child P child with
  | none => (parent, child, [], false)
  | some _ => do_adopt P fuel parent child nextId

/-!
## Growth

`Branch::grow` is called by `test_node.cpp` (`TestGrowth.SimpleGrowth` and
`TestGrowth.Adoption`) but its definition is not among the sources under
`src/`.
-/

/-- Modelled from the spec: `Branch::grow(root, new_child)` is absent from
`src/` (only its call sites in `test/test_node.cpp` are present).  Following
§4.6 of the spec: move the root's contents, foster pointer and foster key
into `new_child` (which keeps its own level), rewrite the root as a fresh
branch page of level `level(new_child) + 1`, and install `new_child` as the
root's sole branch entry under the minimum-key sentinel (`""` for string
keys, `GetMinimumKeyValue<string>`).  The root keeps its identity (page
handle/id); only its contents are rewritten. -/
def grow (P : PageParams) (root new_child : FNode) : FNode × FNode × Bool :=
  let child' : FNode :=
    ⟨root.page, root.fosterPayloads, root.fosterValid, new_child.level, new_child.id⟩
  let root1 : FNode := { construct_node P root.id with level := new_child.level + 1 }
  match node_insert P KO_str E_branch root1.page [] new_child.id with
  | (pg, .inserted) => ({ root1 with page := pg }, child', true)
  | (pg, _) => ({ root1 with page := pg }, child', false)

/-!
## The B-tree (`btree.h`, `GenericBtree`)

The tree state is the root id together with the store of all allocated nodes
(node with id `i` at list index `i - 1`; id `0` is `nullptr`).  Latching is
outside the embedding.  `put` is transcribed along its `upsert = false` path —
the setting of the claims.
-/

/-- The heap of nodes plus the root pointer (`GenericBtree`'s `root_` and the
node manager's allocations). -/
structure Tree where
  nodes : List FNode
  rootId : Nat
deriving DecidableEq

/-- Dereference a node pointer. -/
def Tree.get (t : Tree) (id : Nat) : Option FNode :=
  if id = 0 then none else t.nodes.get? (id - 1)

/-- Write a node back through its pointer. -/
def Tree.setNode (t : Tree) (id : Nat) (n : FNode) : Tree :=
  { t with nodes := t.nodes.set (id - 1) n }

/-- `GenericBtree::GenericBtree()`: a fresh root node, initialized at level
0 with a null foster pointer. -/
def new_tree (P : PageParams) : Tree :=
  ⟨[init_foster_node P (construct_node P 1) 0], 1⟩

/-- The descend loop of `FosterNode::descend_to_child`: find the child
pointer, hop to the foster child when the branch does not cover the key, try
to adopt, restart on success.  Returns the updated tree (adoption mutates it)
and the child id. -/
def descend_to_child (P : PageParams) :
    Nat → Tree → Nat → List Byte → Bool → Tree × Nat
  | 0, t, _, _, _ => (t, 0)
  | fuel + 1, t, branchId, key, useAdopt =>
    match t.get branchId with
    | none => (t, 0)
    | some branch =>
      let child := ((node_find P KO_str E_branch branch.page key).2).getD 0
      if !key_range_contains P branch key then
        descend_to_child P fuel t ((get_foster_child P branch).getD 0) key useAdopt
      else if useAdopt then
        match t.get child with
        | none => (t, child)
        | some childN =>
          match try_adopt P (fuel + 1) branch childN (t.nodes.length + 1) with
          | (b', c', extra, ok) =>
            if ok then
              let t1 := (t.setNode branchId b').setNode child c'
              descend_to_child P fuel { t1 with nodes := t1.nodes ++ extra } branchId key useAdopt
            else (t, child)
      else (t, child)

/-- The sideways walk of `FosterNode::traverse`: follow foster pointers while
the current node does not cover the key. -/
def foster_chain_walk (P : PageParams) : Nat → Tree → Nat → List Byte → Nat
  | 0, _, cid, _ => cid
  | fuel + 1, t, cid, key =>
    match t.get cid with
    | none => cid
    | some c =>
      if key_range_contains P c key then cid
      else foster_chain_walk P fuel t ((get_foster_child P c).getD 0) key

/-- `FosterNode::traverse`: descend (or stay, on a level-0 root), walk the
foster chain, recurse until a leaf is reached. -/
def traverse (P : PageParams) : Nat → Tree → Nat → List Byte → Bool → Tree × Nat
  | 0, t, nid, _, _ => (t, nid)
  | fuel + 1, t, nodeId, key, useAdopt =>
    match t.get nodeId with
    | none => (t, 0)
    | some branch =>
      let d :=
        if branch.level = 0 then (t, nodeId)
        else descend_to_child P (fuel + 1) t nodeId key useAdopt
      let cid := foster_chain_walk P (fuel + 1) d.1 d.2 key
      match d.1.get cid with
      | none => (d.1, 0)
      | some c => if c.level = 0 then (d.1, cid) else traverse P fuel d.1 cid key useAdopt

/-- The `while (!inserted)` split loop of `GenericBtree::put`. -/
def put_loop (P : PageParams) : Nat → Tree → Nat → List Byte → List Byte → Tree
  | 0, t, _, _, _ => t
  | fuel + 1, t, leafId, key, value =>
    match t.get leafId with
    | none => t
    | some leaf =>
      match node_insert P KO_str E_leaf leaf.page key value with
      | (pg, .inserted) => t.setNode leafId { leaf with page := pg }
      | (pg, .dup) => t.setNode leafId { leaf with page := pg }
      | (pg, .full) =>
        let leaf1 := { leaf with page := pg }
        let newId := t.nodes.length + 1
        let (l2, n2, _ok) := split P E_leaf leaf1 (construct_node P newId)
        let t1 := t.setNode leafId l2
        let t2 := { t1 with nodes := t1.nodes ++ [n2] }
        put_loop P fuel t2 (if key_range_contains P l2 key then leafId else newId) key value

/-- `GenericBtree::put(key, value, upsert = false)`: traverse with adoption
to the covering leaf, insert, splitting while full. -/
def tree_put (P : PageParams) (fuel : Nat) (t : Tree) (key value : List Byte) : Tree :=
  match traverse P fuel t t.rootId key true with
  | (t1, leafId) => put_loop P fuel t1 leafId key value

/-- `GenericBtree::get(key, value)`: traverse (still with adoption) and
`find` on the leaf.  Returns the tree (adoption may mutate it), the `find`
result and the value out-parameter. -/
def tree_get (P : PageParams) (fuel : Nat) (t : Tree) (key : List Byte) :
    Tree × Bool × Option (List Byte) :=
  match traverse P fuel t t.rootId key true with
  | (t1, leafId) =>
    match t1.get leafId with
    | none => (t1, false, none)
    | some leaf =>
      match node_find P KO_str E_leaf leaf.page key with
      | (found, v) => (t1, found, v)

/-- `Node::is_sorted` (`node_refactored.h`): PMNKs non-decreasing and decoded
keys non-decreasing. -/
def is_sorted {K V : Type} (P : PageParams) (KO : KeyOps K) (E : EncoderType K V)
    (p : Page) : Bool :=
  (List.range p.slots.length).all fun i =>
    if i = 0 then true
    else
      decide ((get_slot p (i - 1)).key ≤ (get_slot p i).key) &&
        !KO.ltb (read_slot P E p i).1 (read_slot P E p (i - 1)).1

/-!
## Concrete scenario pages and trees

Small concrete instances used by the counterexample and code-bug evaluations:
an 8-byte-aligned page of 64 payload blocks with 4-byte slots (the geometry of
`SlotArray<uint16_t, …>` scaled down), and keys that collide on their 2-byte
PMNK (first two bytes `[5, 5]`).
-/

/-- A small concrete page geometry. -/
def P64 : PageParams := ⟨8, 64, 4⟩

/-- Concrete key `"\x05\x05\x01"`. -/
def kA : List Byte := [5, 5, 1]

/-- Concrete key `"\x05\x05\x09"`; shares its 2-byte PMNK with `kA`. -/
def kB : List Byte := [5, 5, 9]

/-- A page holding only `kA`. -/
def pageA : Page := (node_insert P64 KO_str E_leaf (Page.empty P64) kA [7]).1

/-- A page holding `kA` and `kB` (PMNK-colliding), built by two inserts. -/
def pageAB : Page := (node_insert P64 KO_str E_leaf pageA kB [8]).1

/-- A fresh tree into which `kA ↦ [7]` and then `kB ↦ [8]` are put. -/
def treeAB : Tree := tree_put P64 8 (tree_put P64 8 (new_tree P64) kA [7]) kB [8]

/-!
## Concrete adoption scenario (`TestGrowth.Adoption`)

The leaf family of `test_node.cpp`: six records, a split into a foster pair,
`grow`, and then adoption of the leaf's foster child by the new root.
-/

/-- The six keys `key0 … key5` of the node tests as byte strings. -/
def tkey (i : Nat) : List Byte := [107, 101, 121, byteOf (48 + i)]

/-- The leaf with records `key0 … key5` (insertion order of the test). -/
def adoptLeaf : FNode :=
  { construct_node P64 1 with page :=
      (node_insert P64 KO_str E_leaf
        (node_insert P64 KO_str E_leaf
          (node_insert P64 KO_str E_leaf
            (node_insert P64 KO_str E_leaf
              (node_insert P64 KO_str E_leaf
                (node_insert P64 KO_str E_leaf (Page.empty P64)
                  (tkey 2) [12]).1 (tkey 0) [10]).1 (tkey 1) [11]).1
            (tkey 3) [13]).1 (tkey 4) [14]).1 (tkey 5) [15]).1 }

/-- The leaf/foster pair after `add_foster_child` and `rebalance`. -/
def adoptPair : FNode × FNode × Bool :=
  rebalance P64 E_leaf (add_foster_child P64 adoptLeaf (construct_node P64 2)).1
    (add_foster_child P64 adoptLeaf (construct_node P64 2)).2

/-- The root/child pair after `grow` (the child keeps foster child 2 and
foster key `key3`). -/
def grownPair : FNode × FNode × Bool :=
  grow P64 adoptPair.1 { adoptPair.2.1 with id := 3 }

/-- The state after `try_adopt(root, child)`:
`(parent, child, new nodes, success)`. -/
def adoptResult : FNode × FNode × List FNode × Bool :=
  try_adopt P64 8 grownPair.1 grownPair.2.1 4

set_option maxRecDepth 4000000

/-- The big-endian PMNK of a byte string is bounded by `256 ^ p`. -/
theorem get_pmnk_string_lt (p : Nat) (l : List Byte) : get_pmnk_string p l < 256 ^ p := by
  induction p generalizing l with
  | zero => simp [get_pmnk_string]
  | succ p ih =>
    cases l with
    | nil => simp [get_pmnk_string]
    | cons b bs =>
      have hb : b.val ≤ 255 := Nat.lt_succ_iff.mp b.isLt
      have h1 := ih bs
      calc b.val * 256 ^ p + get_pmnk_string p bs
          < b.val * 256 ^ p + 256 ^ p := by omega
        _ = (b.val + 1) * 256 ^ p := by ring
        _ ≤ 256 * 256 ^ p := by
            apply Nat.mul_le_mul_right
            omega
        _ = 256 ^ (p + 1) := by ring

/-- Monotonicity of the string PMNK with respect to lexicographic order. -/
theorem get_pmnk_string_mono (p : Nat) (a b : List Byte) (h : str_lt a b = true) :
    get_pmnk_string p a ≤ get_pmnk_string p b := by
  induction p generalizing a b with
  | zero => simp [get_pmnk_string]
  | succ p ih =>
    cases a with
    | nil =>
      cases b with
      | nil => simp [str_lt] at h
      | cons y ys => simp [get_pmnk_string]
    | cons x xs =>
      cases b with
      | nil => simp [str_lt] at h
      | cons y ys =>
        simp only [str_lt, Bool.or_eq_true, Bool.and_eq_true, decide_eq_true_eq, beq_iff_eq] at h
        simp only [get_pmnk_string]
        rcases h with hlt | ⟨heq, hrec⟩
        · have h1 := get_pmnk_string_lt p xs
          have h2 : x.val + 1 ≤ y.val := hlt
          refine Nat.le_of_lt ?_
          calc x.val * 256 ^ p + get_pmnk_string p xs
              < x.val * 256 ^ p + 256 ^ p := by omega
            _ = (x.val + 1) * 256 ^ p := by ring
            _ ≤ y.val * 256 ^ p := Nat.mul_le_mul_right _ h2
            _ ≤ y.val * 256 ^ p + get_pmnk_string p ys := Nat.le_add_right _ _
        · subst heq
          have := ih xs ys hrec
          omega

/-- Totality of `str_lt`: two byte strings are ordered or equal. -/
theorem str_lt_trichotomy (a b : List Byte) :
    str_lt a b = true ∨ a = b ∨ str_lt b a = true := by
  induction a generalizing b with
  | nil =>
    cases b with
    | nil => right; left; rfl
    | cons y ys => left; simp [str_lt]
  | cons x xs ih =>
    cases b with
    | nil => right; right; simp [str_lt]
    | cons y ys =>
      rcases Nat.lt_trichotomy x.val y.val with hlt | heq | hgt
      · left; simp [str_lt, hlt]
      · have hxy : x = y := Fin.ext heq
        subst hxy
        rcases ih ys with h | h | h
        · left; simp [str_lt, h]
        · right; left; rw [h]
        · right; right; simp [str_lt, h]
      · right; right; simp [str_lt, hgt]

/-- Claim C7, part of the helper layer: `pmnk(a) < pmnk(b) → a < b` for
string keys. -/
theorem pmnk_string_consistent (p : Nat) (a b : List Byte)
    (h : get_pmnk_string p a < get_pmnk_string p b) : str_lt a b = true := by
  rcases str_lt_trichotomy a b with hlt | heq | hgt
  · exact hlt
  · subst heq; omega
  · have := get_pmnk_string_mono p b a hgt
    omega

/-- C7: for any two keys of the configured key type — a scalar key (PMNK is
the high-order bytes, i.e. a division) or a string key (PMNK is the
big-endian value of the zero-padded first bytes) — a strictly smaller PMNK
implies a strictly smaller key; and PMNK equality is inconclusive: there are
distinct, strictly ordered keys with equal PMNKs. -/
theorem C7_pmnk_order_consistent :
    (∀ kBytes pBytes a b,
      get_pmnk_scalar kBytes pBytes a < get_pmnk_scalar kBytes pBytes b → a < b) ∧
    (∀ p a b, get_pmnk_string p a < get_pmnk_string p b → str_lt a b = true) ∧
    (∃ a b : List Byte,
      get_pmnk_string 2 a = get_pmnk_string 2 b ∧ a ≠ b ∧ str_lt a b = true) := by
  refine ⟨fun kB pB a b h => ?_, pmnk_string_consistent, ⟨[0, 0, 1], [0, 0, 2], by decide⟩⟩
  by_contra hab
  push_neg at hab
  exact absurd (Nat.div_le_div_right (c := 256 ^ (kB - pB)) hab) (Nat.not_le.mpr h)

/-- Witness for C7 at concrete inputs: scalar keys `0x0102, 0x0203` with a
one-byte PMNK, and string keys `[0], [1]` with a two-byte PMNK. -/
theorem C7_pmnk_order_consistent_witness :
    (258 : Nat) < 515 ∧ str_lt [(0 : Byte)] [(1 : Byte)] = true :=
  ⟨C7_pmnk_order_consistent.1 2 1 258 515 (by decide),
    C7_pmnk_order_consistent.2.1 2 [0] [1] (by decide)⟩

/-- `to_bytes_le` produces exactly `w` bytes. -/
theorem to_bytes_le_length (w v : Nat) : (to_bytes_le w v).length = w := by
  induction w generalizing v with
  | zero => rfl
  | succ w ih => simp [to_bytes_le, ih]

/-- Deserializing the serialized bytes recovers the value modulo `256 ^ w`. -/
theorem from_bytes_le_to_bytes_le (w v : Nat) :
    from_bytes_le (to_bytes_le w v) = v % 256 ^ w := by
  induction w generalizing v with
  | zero => simp [to_bytes_le, from_bytes_le, Nat.mod_one]
  | succ w ih =>
    simp only [to_bytes_le, from_bytes_le, byteOf, ih]
    rw [pow_succ, mul_comm (256 ^ w) 256, Nat.mod_mul]

/-- Reading a `w`-byte scalar at the head of its serialization. -/
theorem read_scalar_to_bytes (w v : Nat) (rest : List Byte) :
    read_scalar w (to_bytes_le w v ++ rest) = v % 256 ^ w := by
  rw [read_scalar, List.take_left' (to_bytes_le_length w v), from_bytes_le_to_bytes_le]

/-- Dropping the serialized scalar exposes the rest of the payload. -/
theorem drop_to_bytes_le (w v : Nat) (rest : List Byte) :
    (to_bytes_le w v ++ rest).drop w = rest :=
  List.drop_left' (to_bytes_le_length w v)

/-- `DefaultEncoder<string, string, P>::decode` recovers the pair from
`encode`'s bytes followed by arbitrary trailing bytes, for in-range lengths. -/
theorem encSS_decode_encode (k v : List Byte) (rest : List Byte)
    (hk : k.length < 65536) (hv : v.length < 65536) :
    encSS_decode (encSS_encode k v ++ rest) = (k, v) := by
  have h2 : (65536 : Nat) = 256 ^ 2 := by norm_num
  have hke : encSS_encode k v ++ rest =
      to_bytes_le 2 k.length ++ (k ++ (to_bytes_le 2 v.length ++ (v ++ rest))) := by
    simp [encSS_encode, encode_uint16, List.append_assoc]
  rw [hke]
  have hklen : read_scalar 2
      (to_bytes_le 2 k.length ++ (k ++ (to_bytes_le 2 v.length ++ (v ++ rest)))) = k.length := by
    rw [read_scalar_to_bytes, Nat.mod_eq_of_lt (h2 ▸ hk)]
  have hd2 : (to_bytes_le 2 k.length ++ (k ++ (to_bytes_le 2 v.length ++ (v ++ rest)))).drop 2 =
      k ++ (to_bytes_le 2 v.length ++ (v ++ rest)) := drop_to_bytes_le _ _ _
  have hdk : (to_bytes_le 2 k.length ++
      (k ++ (to_bytes_le 2 v.length ++ (v ++ rest)))).drop (2 + k.length) =
      to_bytes_le 2 v.length ++ (v ++ rest) := by
    rw [← List.drop_drop, hd2, List.drop_left' rfl]
  have hvlen : read_scalar 2 (to_bytes_le 2 v.length ++ (v ++ rest)) = v.length := by
    rw [read_scalar_to_bytes, Nat.mod_eq_of_lt (h2 ▸ hv)]
  simp only [encSS_decode, hklen, hd2, hdk, hvlen, List.take_left' (rfl : k.length = k.length),
    drop_to_bytes_le, List.take_left' (rfl : v.length = v.length)]

/-- `DefaultEncoder<string, string, P>::get_payload_length(void*)` recomputes
the encoded length from the payload bytes. -/
theorem encSS_payload_length_encode (k v : List Byte) (rest : List Byte)
    (hk : k.length < 65536) (hv : v.length < 65536) :
    encSS_payload_length (encSS_encode k v ++ rest) = encSS_payload_length_kv k v := by
  have h2 : (65536 : Nat) = 256 ^ 2 := by norm_num
  have hke : encSS_encode k v ++ rest =
      to_bytes_le 2 k.length ++ (k ++ (to_bytes_le 2 v.length ++ (v ++ rest))) := by
    simp [encSS_encode, encode_uint16, List.append_assoc]
  rw [hke]
  have hklen : read_scalar 2
      (to_bytes_le 2 k.length ++ (k ++ (to_bytes_le 2 v.length ++ (v ++ rest)))) = k.length := by
    rw [read_scalar_to_bytes, Nat.mod_eq_of_lt (h2 ▸ hk)]
  have hdk : (to_bytes_le 2 k.length ++
      (k ++ (to_bytes_le 2 v.length ++ (v ++ rest)))).drop (2 + k.length) =
      to_bytes_le 2 v.length ++ (v ++ rest) := by
    rw [← List.drop_drop, drop_to_bytes_le, List.drop_left' rfl]
  have hvlen : read_scalar 2 (to_bytes_le 2 v.length ++ (v ++ rest)) = v.length := by
    rw [read_scalar_to_bytes, Nat.mod_eq_of_lt (h2 ▸ hv)]
  simp only [encSS_payload_length, encSS_payload_length_kv, hklen, hdk, hvlen]
  omega


/-- C8 (corrected): the encode/decode round trip of `DefaultEncoder` at both
cited configurations, for keys and values shorter than `2 ^ 16` bytes (the
encoded length field is a `uint16_t`): string pairs decode to exactly the
encoded pair, the PMNK of the key is unchanged by the round trip, and scalar
pairs decode to exactly the encoded pair given the PMNK hint of the key. -/
theorem C8_encoder_round_trip (k v : List Byte)
    (hk : k.length < 65536) (hv : v.length < 65536)
    (kPresent : Bool) (wK wV key value : Nat)
    (hkey : key < 256 ^ wK) (hvalue : value < 256 ^ wV) :
    encSS_decode (encSS_encode k v) = (k, v) ∧
    get_pmnk_string 2 (encSS_decode (encSS_encode k v)).1 = get_pmnk_string 2 k ∧
    encScalar_decode kPresent wK wV (encScalar_encode kPresent wK wV key value) key =
      (key, value) := by
  have hrt : encSS_decode (encSS_encode k v) = (k, v) := by
    have := encSS_decode_encode k v [] hk hv
    simpa using this
  refine ⟨hrt, by rw [hrt], ?_⟩
  cases kPresent with
  | false =>
    simp only [encScalar_encode, encScalar_decode, Bool.false_eq_true, if_false,
      List.nil_append]
    rw [read_scalar, List.take_of_length_le (by rw [to_bytes_le_length]),
      from_bytes_le_to_bytes_le, Nat.mod_eq_of_lt hvalue]
  | true =>
    simp only [encScalar_encode, encScalar_decode, if_true]
    rw [read_scalar_to_bytes, Nat.mod_eq_of_lt hkey, drop_to_bytes_le,
      read_scalar, List.take_of_length_le (by rw [to_bytes_le_length]),
      from_bytes_le_to_bytes_le, Nat.mod_eq_of_lt hvalue]

/-- Witness for C8 at concrete inputs. -/
theorem C8_encoder_round_trip_witness :
    encSS_decode (encSS_encode [1, 2] [3]) = ([1, 2], [3]) ∧
    get_pmnk_string 2 (encSS_decode (encSS_encode [1, 2] [3])).1 =
      get_pmnk_string 2 [1, 2] ∧
    encScalar_decode true 4 8 (encScalar_encode true 4 8 7 9) 7 = (7, 9) :=
  C8_encoder_round_trip [1, 2] [3] (by decide) (by decide) true 4 8 7 9
    (by norm_num) (by norm_num)

/-- Counterexample to C8 as stated: for a 65536-byte key the `uint16_t`
length field truncates to zero and the decoded key is empty, so
`decode ∘ encode` is not the identity on every pair. -/
theorem C8_counterexample :
    encSS_decode (encSS_encode (List.replicate 65536 (0 : Byte)) []) ≠
      (List.replicate 65536 (0 : Byte), []) := by
  intro h
  have h1 : (encSS_decode (encSS_encode (List.replicate 65536 (0 : Byte)) [])).1 =
      List.replicate 65536 (0 : Byte) := by rw [h]
  have h2 : (encSS_decode (encSS_encode (List.replicate 65536 (0 : Byte)) [])).1 = [] := by
    simp only [encSS_decode, encSS_encode, encode_uint16, List.append_assoc,
      List.length_replicate]
    rw [read_scalar_to_bytes]
    norm_num
  rw [h2] at h1
  have := congrArg List.length h1
  simp only [List.length_nil, List.length_replicate] at this
  exact absurd this (by norm_num)

/-- The loop-invariant lemma for `BinarySearch::operator()`: over a
non-decreasing PMNK column, with everything below `b` strictly smaller than
the key, everything above `e` strictly greater, `ret` tracking `b`, and fuel
dominating the measure `e + 1 - b`, the loop returns an exact hit or the
insertion point. -/
theorem binary_search_go (arr : List Nat) (key : Nat)
    (hs : ∀ i j, i ≤ j → j < arr.length → arr.getD i 0 ≤ arr.getD j 0) :
    ∀ fuel b e ret,
      e + 1 - b ≤ fuel →
      e ≤ arr.length →
      b ≤ e + 1 →
      (b = 0 ∨ (ret = b ∧ b ≤ arr.length)) →
      (∀ i, i < b → arr.getD i 0 < key) →
      (∀ i, e < i → i < arr.length → key < arr.getD i 0) →
      ((binary_search fuel arr key b e ret).2 = true →
        (binary_search fuel arr key b e ret).1 < arr.length ∧
        arr.getD (binary_search fuel arr key b e ret).1 0 = key) ∧
      ((binary_search fuel arr key b e ret).2 = false →
        (∀ i, i < (binary_search fuel arr key b e ret).1 → arr.getD i 0 < key) ∧
        ((binary_search fuel arr key b e ret).1 = arr.length ∨
          key ≤ arr.getD (binary_search fuel arr key b e ret).1 0) ∧
        (binary_search fuel arr key b e ret).1 ≤ arr.length ∧
        (∀ t, t < arr.length → arr.getD t 0 ≠ key)) := by
  intro fuel
  induction fuel with
  | zero =>
    intro b e ret hfuel he hb hret hinv1 hinv2
    have hbe : b = e + 1 := by omega
    simp only [binary_search]
    refine ⟨fun h => by simp at h, fun _ => ?_⟩
    rcases hret with h0 | ⟨hrb, hbl⟩
    · omega
    · rw [hrb]
      refine ⟨hinv1, ?_, hbl, fun t ht => ?_⟩
      · rcases Nat.lt_or_ge b arr.length with h | h
        · exact Or.inr (Nat.le_of_lt (hinv2 b (by omega) h))
        · exact Or.inl (by omega)
      · rcases Nat.lt_or_ge t b with h | h
        · exact Nat.ne_of_lt (hinv1 t h)
        · exact (Nat.ne_of_lt (hinv2 t (by omega) ht)).symm
  | succ fuel ih =>
    intro b e ret hfuel he hb hret hinv1 hinv2
    by_cases hbe : b ≤ e
    case neg =>
      have hbe' : b = e + 1 := by omega
      simp only [binary_search, if_neg hbe]
      refine ⟨fun h => by simp at h, fun _ => ?_⟩
      rcases hret with h0 | ⟨hrb, hbl⟩
      · omega
      · rw [hrb]
        refine ⟨hinv1, ?_, hbl, fun t ht => ?_⟩
        · rcases Nat.lt_or_ge b arr.length with h | h
          · exact Or.inr (Nat.le_of_lt (hinv2 b (by omega) h))
          · exact Or.inl (by omega)
        · rcases Nat.lt_or_ge t b with h | h
          · exact Nat.ne_of_lt (hinv1 t h)
          · exact (Nat.ne_of_lt (hinv2 t (by omega) ht)).symm
    case pos =>
      have hdiv : (e - b) / 2 ≤ e - b := Nat.div_le_self _ _
      have hmidge : b ≤ b + (e - b) / 2 := Nat.le_add_right _ _
      have hmidle : b + (e - b) / 2 ≤ e := by omega
      by_cases hml : b + (e - b) / 2 = arr.length
      case pos =>
        have heq : e = arr.length := by omega
        have hbb : (arr.length - b) / 2 = arr.length - b := by omega
        have hbe2 : b = arr.length := by
          rcases (Nat.div_eq_self.mp hbb) with h | h <;> omega
        simp only [binary_search, if_pos hbe, if_pos hml]
        refine ⟨fun h => by simp at h, fun _ => ?_⟩
        refine ⟨fun i hi => hinv1 i (by omega), Or.inl hml, Nat.le_of_eq hml,
          fun t ht => Nat.ne_of_lt (hinv1 t (by omega))⟩
      case neg =>
        have hmllt : b + (e - b) / 2 < arr.length := by omega
        by_cases hkeq : key = arr.getD (b + (e - b) / 2) 0
        case pos =>
          simp only [binary_search, if_pos hbe, if_neg hml, if_pos hkeq]
          exact ⟨fun _ => ⟨hmllt, hkeq.symm⟩, fun h => by simp at h⟩
        case neg =>
          by_cases hklt : key < arr.getD (b + (e - b) / 2) 0
          case pos =>
            by_cases hm0 : b + (e - b) / 2 = 0
            case pos =>
              simp only [binary_search, if_pos hbe, if_neg hml, if_neg hkeq, if_pos hklt,
                if_pos hm0]
              refine ⟨fun h => by simp at h, fun _ => ?_⟩
              refine ⟨fun i hi => by omega, Or.inr ?_, Nat.zero_le _, fun t ht => ?_⟩
              · exact Nat.le_of_lt (hm0 ▸ hklt)
              · have h0t : arr.getD 0 0 ≤ arr.getD t 0 := hs 0 t (Nat.zero_le _) ht
                rw [hm0] at hklt
                omega
            case neg =>
              simp only [binary_search, if_pos hbe, if_neg hml, if_neg hkeq, if_pos hklt,
                if_neg hm0]
              refine ih b (b + (e - b) / 2 - 1) ret (by omega) (by omega) (by omega) hret
                hinv1 (fun i hi hil => ?_)
              have : arr.getD (b + (e - b) / 2) 0 ≤ arr.getD i 0 :=
                hs _ i (by omega) hil
              omega
          case neg =>
            have hkgt : arr.getD (b + (e - b) / 2) 0 < key := by
              rcases Nat.lt_trichotomy key (arr.getD (b + (e - b) / 2) 0) with h | h | h
              · exact absurd h hklt
              · exact absurd h hkeq
              · exact h
            by_cases hbee : b = e
            case pos =>
              simp only [binary_search, if_pos hbe, if_neg hml, if_neg hkeq, if_neg hklt,
                if_pos hbee]
              refine ⟨fun h => by simp at h, fun _ => ?_⟩
              have hmide : b + (e - b) / 2 = e := by omega
              refine ⟨fun i hi => ?_, ?_, by omega, fun t ht => ?_⟩
              · have : arr.getD i 0 ≤ arr.getD (b + (e - b) / 2) 0 :=
                  hs i _ (by omega) hmllt
                omega
              · rcases Nat.lt_or_ge (b + (e - b) / 2 + 1) arr.length with h | h
                · exact Or.inr (Nat.le_of_lt (hinv2 _ (by omega) h))
                · exact Or.inl (by omega)
              · rcases Nat.lt_or_ge t (b + (e - b) / 2 + 1) with h | h
                · have : arr.getD t 0 ≤ arr.getD (b + (e - b) / 2) 0 :=
                    hs t _ (by omega) hmllt
                  omega
                · exact (Nat.ne_of_lt (hinv2 t (by omega) ht)).symm
            case neg =>
              simp only [binary_search, if_pos hbe, if_neg hml, if_neg hkeq, if_neg hklt,
                if_neg hbee]
              have hmlt : b + (e - b) / 2 < e := by
                rcases Nat.lt_or_ge (b + (e - b) / 2) e with h | h
                · exact h
                · exfalso
                  have : b + (e - b) / 2 = e := by omega
                  have hdd : (e - b) / 2 = e - b := by omega
                  rcases Nat.div_eq_self.mp hdd with h' | h' <;> omega
              refine ih (b + (e - b) / 2 + 1) e (b + (e - b) / 2 + 1) (by omega)
                he (by omega) (Or.inr ⟨rfl, by omega⟩) (fun i hi => ?_) hinv2
              rcases Nat.lt_or_ge i (b + (e - b) / 2) with h | h
              · have : arr.getD i 0 ≤ arr.getD (b + (e - b) / 2) 0 :=
                  hs i _ (by omega) hmllt
                omega
              · have hieq : i = b + (e - b) / 2 := by omega
                rw [hieq]; exact hkgt

/-- C9: over a page whose PMNK column is non-decreasing, `binary_search` on
`[0, slot_count]` finds the searched PMNK exactly when some slot holds it (and
then returns a position holding it), and otherwise reports the insertion
point: all PMNKs before it are smaller, it is within bounds, it is either
`slot_count` or a position whose PMNK is at least the searched one, and it is
exactly `slot_count` when every stored PMNK is smaller. -/
theorem C9_binary_search (arr : List Nat) (key : Nat)
    (hs : ∀ i j, i ≤ j → j < arr.length → arr.getD i 0 ≤ arr.getD j 0) :
    ((binary_search_full arr key).2 = true ↔
      ∃ i, i < arr.length ∧ arr.getD i 0 = key) ∧
    ((binary_search_full arr key).2 = true →
      arr.getD (binary_search_full arr key).1 0 = key) ∧
    ((binary_search_full arr key).2 = false →
      (∀ i, i < (binary_search_full arr key).1 → arr.getD i 0 < key) ∧
      (binary_search_full arr key).1 ≤ arr.length ∧
      ((binary_search_full arr key).1 = arr.length ∨
        key ≤ arr.getD (binary_search_full arr key).1 0)) ∧
    ((∀ i, i < arr.length → arr.getD i 0 < key) →
      binary_search_full arr key = (arr.length, false)) := by
  have hgo := binary_search_go arr key hs (arr.length + 2) 0 arr.length 0
    (by omega) (Nat.le_refl _) (by omega) (Or.inl rfl) (fun i hi => by omega)
    (fun i hi hil => by omega)
  rw [binary_search_full]
  rcases hgo with ⟨htrue, hfalse⟩
  constructor
  · constructor
    · intro h
      rcases htrue h with ⟨h1, h2⟩
      exact ⟨_, h1, h2⟩
    · intro ⟨i, hi, hkey⟩
      by_contra h
      have hf : (binary_search (arr.length + 2) arr key 0 arr.length 0).2 = false := by
        cases hx : (binary_search (arr.length + 2) arr key 0 arr.length 0).2
        · rfl
        · exact absurd hx h
      exact absurd hkey ((hfalse hf).2.2.2 i hi)
  refine ⟨fun h => (htrue h).2, fun h => ⟨(hfalse h).1, (hfalse h).2.2.1, (hfalse h).2.1⟩, ?_⟩
  intro hall
  have hf : (binary_search (arr.length + 2) arr key 0 arr.length 0).2 = false := by
    cases hx : (binary_search (arr.length + 2) arr key 0 arr.length 0).2
    · rfl
    · rcases htrue hx with ⟨h1, h2⟩
      exact absurd h2 (Nat.ne_of_lt (hall _ h1))
  rcases hfalse hf with ⟨h1, h2, h3, _⟩
  have hpos : (binary_search (arr.length + 2) arr key 0 arr.length 0).1 = arr.length := by
    rcases h2 with h | h
    · exact h
    · rcases Nat.lt_or_ge (binary_search (arr.length + 2) arr key 0 arr.length 0).1
        arr.length with hlt | hge
      · exact absurd h (by have := hall _ hlt; omega)
      · omega
  have : (binary_search (arr.length + 2) arr key 0 arr.length 0) =
      ((binary_search (arr.length + 2) arr key 0 arr.length 0).1,
       (binary_search (arr.length + 2) arr key 0 arr.length 0).2) := rfl
  rw [this, hpos, hf]

/-- A pairwise-sorted list is index-monotone (bridge used to discharge the
sortedness hypothesis on concrete inputs). -/
theorem sorted_of_pairwise (arr : List Nat) (h : List.Pairwise (· ≤ ·) arr) :
    ∀ i j, i ≤ j → j < arr.length → arr.getD i 0 ≤ arr.getD j 0 := by
  intro i j hij hj
  rcases Nat.lt_or_eq_of_le hij with hlt | heq
  · rw [List.getD_eq_getElem arr 0 (by omega), List.getD_eq_getElem arr 0 hj]
    exact List.pairwise_iff_getElem.mp h i j (by omega) hj hlt
  · rw [heq]

/-- Witness for C9 on a concrete sorted column. -/
theorem C9_binary_search_witness :
    ((binary_search_full [2, 4, 4, 6] 4).2 = true ↔
      ∃ i, i < [2, 4, 4, 6].length ∧ [2, 4, 4, 6].getD i 0 = 4) ∧
    (binary_search_full [2, 4, 4, 6] 4).2 = true := by
  have h := C9_binary_search [2, 4, 4, 6] 4 (sorted_of_pairwise _ (by decide))
  exact ⟨h.1, h.1.mpr ⟨1, by decide, by decide⟩⟩

/-- The PMNK column entry of slot `i`. -/
theorem getD_map_key (p : Page) (i : Nat) (h : i < p.slots.length) :
    (p.slots.map (·.key)).getD i 0 = (get_slot p i).key := by
  rw [List.getD_eq_getElem _ _ (by simpa using h), List.getElem_map, get_slot,
    List.getD_eq_getElem _ _ h]

/-- When the searched PMNK is below every stored PMNK, the `b = 0` and
`ret = 0` state is invariant: the loop only ever moves `e` leftward. -/
theorem binary_search_all_gt_go (arr : List Nat) (key : Nat)
    (hall : ∀ i, i < arr.length → key < arr.getD i 0) :
    ∀ fuel e, e + 1 ≤ fuel → e ≤ arr.length →
      binary_search fuel arr key 0 e 0 = (0, false) := by
  intro fuel
  induction fuel with
  | zero => intro e hf _; omega
  | succ fuel ih =>
    intro e hf he
    have hbe : 0 ≤ e := Nat.zero_le _
    simp only [binary_search, if_pos hbe]
    have hmid : 0 + (e - 0) / 2 = e / 2 := by simp
    by_cases hml : 0 + (e - 0) / 2 = arr.length
    case pos =>
      rw [if_pos hml]
      have hd := Nat.div_le_self (e - 0) 2
      have hee : (e - 0) / 2 = e - 0 := by omega
      have he0 : e = 0 := by
        rcases Nat.div_eq_self.mp hee with h | h <;> omega
      subst he0
      rfl
    case neg =>
      rw [if_neg hml]
      have hmlt : 0 + (e - 0) / 2 < arr.length := by
        have : 0 + (e - 0) / 2 ≤ e := by
          have := Nat.div_le_self (e - 0) 2
          omega
        omega
      have hgt : key < arr.getD (0 + (e - 0) / 2) 0 := hall _ hmlt
      rw [if_neg (by omega), if_pos hgt]
      by_cases hm0 : 0 + (e - 0) / 2 = 0
      case pos => rw [if_pos hm0]
      case neg =>
        rw [if_neg hm0]
        refine ih (0 + (e - 0) / 2 - 1) ?_ ?_
        · have := Nat.div_le_self (e - 0) 2
          omega
        · omega

/-- When the searched PMNK is below every stored PMNK, `binary_search`
reports insertion point `0` and no hit. -/
theorem binary_search_full_all_gt (arr : List Nat) (key : Nat)
    (hall : ∀ i, i < arr.length → key < arr.getD i 0) :
    binary_search_full arr key = (0, false) :=
  binary_search_all_gt_go arr key hall (arr.length + 2) arr.length (by omega)
    (Nat.le_refl _)

/-- C10 (corrected): `KeyValueArray::find` with a non-null value out-parameter
requires the searched key's PMNK to be at least the smallest stored PMNK: on a
non-empty array all of whose stored PMNKs are strictly greater than the
searched key's PMNK (in particular, when the key sorts below every stored key
and shares no PMNK with slot 0), the binary search reports insertion point 0,
the previous-slot branch decrements the unsigned slot number 0 to 65535, and
the slot access goes out of range; the refactored `Node::find_slot` guards
the branch with `slot > 0` and leaves the value output untouched. -/
theorem C10_find_prev_slot_underflow {K V : Type} (P : PageParams) (KO : KeyOps K)
    (E : EncoderType K V) (p : Page) (key : K)
    (hne : 0 < p.slots.length) (hbound : p.slots.length ≤ 65535)
    (hlow : ∀ i, i < p.slots.length → E.get_pmnk key < (get_slot p i).key) :
    kv_find_slot P KO E p key true = Except.error () ∧
    find_slot P KO E p key true = (0, false, none) := by
  have hbs : binary_search_full (p.slots.map (·.key)) (E.get_pmnk key) = (0, false) := by
    refine binary_search_full_all_gt _ _ fun i hi => ?_
    rw [List.length_map] at hi
    rw [getD_map_key p i hi]
    exact hlow i hi
  constructor
  · have h1 : ¬((0 + 65535) % 65536 < p.slots.length) := by omega
    simp [kv_find_slot, hbs, hne, h1]
  · simp [find_slot, hbs]

/-- Witness for C10: on the concrete PMNK-colliding page, searching a key
below every stored PMNK makes `KeyValueArray::find_slot` read an
out-of-range slot while `Node::find_slot` returns cleanly. -/
theorem C10_find_prev_slot_underflow_witness :
    kv_find_slot P64 KO_str E_leaf pageAB [0] true = Except.error () ∧
    find_slot P64 KO_str E_leaf pageAB [0] true = (0, false, none) :=
  C10_find_prev_slot_underflow P64 KO_str E_leaf pageAB [0] (by decide) (by decide)
    (by decide)

/-- Counterexample to C10 as stated: on the PMNK-colliding page holding
`kA = [5,5,1]` and `kB = [5,5,9]`, the key `[5,5,0]` sorts before every
stored key, yet the binary search lands on slot 1, the reported position is 1
(not the insertion point 0), and no out-of-range access happens — the
previous-slot step decrements 1, not 0. -/
theorem C10_counterexample :
    str_lt [5, 5, 0] kA = true ∧ str_lt [5, 5, 0] kB = true ∧
    (read_slot P64 E_leaf pageAB 0).1 = kA ∧ (read_slot P64 E_leaf pageAB 1).1 = kB ∧
    pageAB.slots.length = 2 ∧
    kv_find_slot P64 KO_str E_leaf pageAB [5, 5, 0] true =
      Except.ok (1, false, some [8]) :=
  ⟨by decide, by decide, by decide, by decide, by decide, by rfl⟩

/-- Writing no bytes leaves the heap unchanged. -/
theorem write_range_nil (l : List Byte) (off : Nat) : write_range l off [] = l := by
  simp [write_range, List.take_append_drop]

/-- Without sortedness: an exact `binary_search` hit is in bounds and holds
the searched key. -/
theorem binary_search_found (arr : List Nat) (key : Nat) :
    ∀ fuel b e ret, e ≤ arr.length →
      (binary_search fuel arr key b e ret).2 = true →
      (binary_search fuel arr key b e ret).1 < arr.length ∧
      arr.getD (binary_search fuel arr key b e ret).1 0 = key := by
  intro fuel
  induction fuel with
  | zero => intro b e ret he h; simp [binary_search] at h
  | succ fuel ih =>
    intro b e ret he h
    simp only [binary_search] at h ⊢
    by_cases hbe : b ≤ e
    case neg => rw [if_neg hbe] at h ⊢; simp at h
    case pos =>
      rw [if_pos hbe] at h ⊢
      by_cases hml : b + (e - b) / 2 = arr.length
      case pos => rw [if_pos hml] at h ⊢; simp at h
      case neg =>
        rw [if_neg hml] at h ⊢
        have hdiv := Nat.div_le_self (e - b) 2
        have hmlt : b + (e - b) / 2 < arr.length := by omega
        by_cases hkeq : key = arr.getD (b + (e - b) / 2) 0
        case pos => rw [if_pos hkeq] at h ⊢; exact ⟨hmlt, hkeq.symm⟩
        case neg =>
          rw [if_neg hkeq] at h ⊢
          by_cases hklt : key < arr.getD (b + (e - b) / 2) 0
          case pos =>
            rw [if_pos hklt] at h ⊢
            by_cases hm0 : b + (e - b) / 2 = 0
            case pos => rw [if_pos hm0] at h; simp at h
            case neg => rw [if_neg hm0] at h ⊢; exact ih b _ ret (by omega) h
          case neg =>
            rw [if_neg hklt] at h ⊢
            by_cases hbee : b = e
            case pos => rw [if_pos hbee] at h; simp at h
            case neg => rw [if_neg hbee] at h ⊢; exact ih _ e _ he h

/-- The confirmation walk only reports `true` on a slot that decodes to the
searched key. -/
theorem find_walk_sound {K V : Type} (P : PageParams) (KO : KeyOps K)
    (E : EncoderType K V) (p : Page) (key : K) (pmnk : Nat) (wv : Bool)
    (heqb : ∀ a b : K, KO.eqb a b = true → a = b) :
    ∀ fuel slot vout, slot < p.slots.length →
      (find_walk P KO E p key pmnk wv fuel slot vout).2.1 = true →
      (find_walk P KO E p key pmnk wv fuel slot vout).1 < p.slots.length ∧
      (read_slot P E p (find_walk P KO E p key pmnk wv fuel slot vout).1).1 = key := by
  intro fuel
  induction fuel with
  | zero => intro slot vout hlt h; simp [find_walk] at h
  | succ fuel ih =>
    intro slot vout hlt h
    simp only [find_walk] at h ⊢
    by_cases he : KO.eqb (read_slot P E p slot).1 key = true
    case pos => rw [if_pos he] at h ⊢; exact ⟨hlt, heqb _ _ he⟩
    case neg =>
      rw [if_neg he] at h ⊢
      by_cases hl : KO.ltb key (read_slot P E p slot).1 = true
      case pos => rw [if_pos hl] at h; simp at h
      case neg =>
        rw [if_neg hl] at h ⊢
        by_cases hend : p.slots.length ≤ slot + 1
        case pos => rw [if_pos hend] at h; simp at h
        case neg =>
          rw [if_neg hend] at h ⊢
          by_cases hpm : (get_slot p (slot + 1)).key = pmnk
          case pos => rw [if_pos hpm] at h ⊢; exact ih (slot + 1) _ (by omega) h
          case neg => rw [if_neg hpm] at h; simp at h

/-- The confirmation walk succeeds immediately on a slot that decodes to the
searched key. -/
theorem find_walk_hit {K V : Type} (P : PageParams) (KO : KeyOps K)
    (E : EncoderType K V) (p : Page) (key : K) (pmnk : Nat) (wv : Bool)
    (heqb : ∀ a b : K, KO.eqb a b = true ↔ a = b)
    (fuel slot : Nat) (vout : Option V) (h : (read_slot P E p slot).1 = key) :
    find_walk P KO E p key pmnk wv (fuel + 1) slot vout =
      (slot, true, if wv then some (read_slot P E p slot).2 else vout) := by
  simp only [find_walk, if_pos ((heqb _ _).mpr h)]

/-- `Node::find_slot` reports `true` only when some slot decodes to the
searched key. -/
theorem find_slot_sound {K V : Type} (P : PageParams) (KO : KeyOps K)
    (E : EncoderType K V) (p : Page) (key : K) (wv : Bool)
    (heqb : ∀ a b : K, KO.eqb a b = true → a = b)
    (h : (find_slot P KO E p key wv).2.1 = true) :
    ∃ i, i < p.slots.length ∧ (read_slot P E p i).1 = key := by
  rcases hbs : binary_search_full (p.slots.map (·.key)) (E.get_pmnk key) with ⟨pos, found⟩
  have hlen : (p.slots.map (·.key)).length = p.slots.length := List.length_map _ _
  cases found with
  | false =>
    simp only [find_slot, hbs, Bool.false_eq_true, if_false] at h
    by_cases hc : wv = true ∧ 0 < pos
    · rw [if_pos hc] at h; simp at h
    · rw [if_neg hc] at h; simp at h
  | true =>
    have hfd := binary_search_found (p.slots.map (·.key)) (E.get_pmnk key)
      ((p.slots.map (·.key)).length + 2) 0 (p.slots.map (·.key)).length 0
      (Nat.le_refl _)
    rw [show binary_search ((p.slots.map (·.key)).length + 2) (p.slots.map (·.key))
      (E.get_pmnk key) 0 (p.slots.map (·.key)).length 0 =
      binary_search_full (p.slots.map (·.key)) (E.get_pmnk key) from rfl, hbs] at hfd
    have hpos : pos < p.slots.length := by
      have := (hfd rfl).1
      omega
    simp only [find_slot, hbs] at h
    have hwalk := find_walk_sound P KO E p key (E.get_pmnk key) wv heqb
      (p.slots.length + 1) pos none hpos
    rcases hw : find_walk P KO E p key (E.get_pmnk key) wv (p.slots.length + 1) pos none
      with ⟨ws, wf, wv'⟩
    rw [hw] at h hwalk
    cases wf with
    | true => exact ⟨ws, hwalk rfl⟩
    | false =>
      simp only [if_true, Bool.false_eq_true, if_false] at h
      by_cases hc : wv = true ∧ 0 < ws
      · rw [if_pos hc] at h; simp at h
      · rw [if_neg hc] at h; simp at h

/-- `Node::find_slot` finds a key that is present, provided the PMNK column
is sorted and the key's PMNK identifies its slot uniquely. -/
theorem find_slot_complete {K V : Type} (P : PageParams) (KO : KeyOps K)
    (E : EncoderType K V) (p : Page) (key : K) (wv : Bool)
    (heqb : ∀ a b : K, KO.eqb a b = true ↔ a = b)
    (hs : ∀ i j, i ≤ j → j < (p.slots.map (·.key)).length →
      (p.slots.map (·.key)).getD i 0 ≤ (p.slots.map (·.key)).getD j 0)
    (i : Nat) (hi : i < p.slots.length)
    (hik : (read_slot P E p i).1 = key)
    (hcons : (get_slot p i).key = E.get_pmnk key)
    (huniq : ∀ j, j < p.slots.length → (get_slot p j).key = E.get_pmnk key → j = i) :
    (find_slot P KO E p key wv).2.1 = true := by
  have hlen : (p.slots.map (·.key)).length = p.slots.length := List.length_map _ _
  have hgo := binary_search_go (p.slots.map (·.key)) (E.get_pmnk key) hs
    ((p.slots.map (·.key)).length + 2) 0 (p.slots.map (·.key)).length 0
    (by omega) (Nat.le_refl _) (by omega) (Or.inl rfl) (fun t ht => by omega)
    (fun t ht htl => by omega)
  rw [show binary_search ((p.slots.map (·.key)).length + 2) (p.slots.map (·.key))
    (E.get_pmnk key) 0 (p.slots.map (·.key)).length 0 =
    binary_search_full (p.slots.map (·.key)) (E.get_pmnk key) from rfl] at hgo
  rcases hbs : binary_search_full (p.slots.map (·.key)) (E.get_pmnk key) with ⟨pos, found⟩
  rw [hbs] at hgo
  cases found with
  | false =>
    exfalso
    have := (hgo.2 rfl).2.2.2 i (by omega)
    rw [getD_map_key p i hi] at this
    exact this hcons
  | true =>
    have hpos1 : pos < p.slots.length := by
      have := (hgo.1 rfl).1
      omega
    have hpos2 : (get_slot p pos).key = E.get_pmnk key := by
      have := (hgo.1 rfl).2
      rwa [getD_map_key p pos hpos1] at this
    have hpi : pos = i := huniq pos hpos1 hpos2
    subst hpi
    simp only [find_slot, hbs]
    rw [show p.slots.length + 1 = p.slots.length + 1 from rfl,
      find_walk_hit P KO E p key (E.get_pmnk key) wv heqb p.slots.length pos none hik]
    simp

/-- A successful `allocate_payload` followed by `free_payload` of the same
payload restores the page exactly (the `insert_slot`-failure path of
`Node::insert_key`): the freshly allocated payload sits at `payload_begin`,
so the freeing shift moves zero blocks and only restores `payload_begin`. -/
theorem free_payload_allocate (P : PageParams) (hA : 0 < P.align) (p p1 : Page)
    (len ptr : Nat) (h : allocate_payload P p len = (p1, some ptr)) :
    free_payload P p1 ptr len = p := by
  obtain ⟨ps, ppb, ph⟩ := p
  unfold allocate_payload at h
  by_cases hf : free_space P ⟨ps, ppb, ph⟩ < get_payload_count P len * P.align
  case pos => rw [if_pos hf] at h; simp at h
  case neg =>
    rw [if_neg hf] at h
    have hp1 : p1 = ⟨ps, ppb - get_payload_count P len, ph⟩ := (congrArg Prod.fst h).symm
    have hptr : ptr = ppb - get_payload_count P len := by
      have h2 := congrArg Prod.snd h
      simp only [Option.some.injEq] at h2
      exact h2.symm
    have hcnt : get_payload_count P len ≤ ppb := by
      push_neg at hf
      have h2 : free_space P ⟨ps, ppb, ph⟩ ≤ ppb * P.align := Nat.sub_le _ _
      have h1 : get_payload_count P len * P.align ≤ ppb * P.align := le_trans hf h2
      exact Nat.le_of_mul_le_mul_right h1 hA
    subst hp1 hptr
    simp only [free_payload, shift_payloads]
    split
    next hcond => exact absurd hcond.1 (by omega)
    next hcond =>
      simp only [Page.mk.injEq]
      refine ⟨?_, ?_, ?_⟩
      · simp
      · rw [min_eq_left (Nat.le_add_right _ _), if_pos (Nat.le_refl _)]
        omega
      · simp [Nat.sub_self, read_range, write_range_nil]

/-- C6 (corrected): on a node whose PMNK column is sorted and in which the
searched key's PMNK belongs to at most one slot, `Node::insert` fails with the
duplicate error exactly when the key is already present, and the node is
unchanged in that case; whenever it reports the full condition — insufficient
payload space, or insufficient slot space after a successful payload
allocation — the node is returned unchanged, the transiently allocated payload
having been freed again. -/
theorem C6_insert_duplicate_and_full {K V : Type} (P : PageParams) (KO : KeyOps K)
    (E : EncoderType K V) (p : Page) (key : K) (value : V)
    (hA : 0 < P.align)
    (heqb : ∀ a b : K, KO.eqb a b = true ↔ a = b)
    (hs : ∀ i j, i ≤ j → j < (p.slots.map (·.key)).length →
      (p.slots.map (·.key)).getD i 0 ≤ (p.slots.map (·.key)).getD j 0)
    (hcons : ∀ i, i < p.slots.length → (read_slot P E p i).1 = key →
      (get_slot p i).key = E.get_pmnk key ∧
      ∀ j, j < p.slots.length → (get_slot p j).key = E.get_pmnk key → j = i) :
    ((node_insert P KO E p key value).2 = .dup ↔
      ∃ i, i < p.slots.length ∧ (read_slot P E p i).1 = key) ∧
    ((node_insert P KO E p key value).2 = .dup → (node_insert P KO E p key value).1 = p) ∧
    ((node_insert P KO E p key value).2 = .full → (node_insert P KO E p key value).1 = p) := by
  have hiff : (find_slot P KO E p key false).2.1 = true ↔
      ∃ i, i < p.slots.length ∧ (read_slot P E p i).1 = key := by
    constructor
    · exact fun h => find_slot_sound P KO E p key false (fun a b => (heqb a b).mp) h
    · rintro ⟨i, hi, hik⟩
      exact find_slot_complete P KO E p key false heqb hs i hi hik (hcons i hi hik).1
        (hcons i hi hik).2
  cases hft : (find_slot P KO E p key false).2.1 with
  | true =>
    have hni : node_insert P KO E p key value = (p, .dup) := by
      simp only [node_insert, insert_key, hft, if_true]
    rw [hni]
    exact ⟨by simpa using hiff.mp hft, fun _ => rfl, fun h => by simp at h⟩
  | false =>
    have hnp : ¬∃ i, i < p.slots.length ∧ (read_slot P E p i).1 = key := by
      intro hex
      rw [hiff.mpr hex] at hft
      exact Bool.true_eq_false.mp hft
    rcases hal : allocate_payload P p (E.payload_length_kv key value)
      with ⟨p1, po⟩
    have hp1 : po = none → p1 = p := by
      intro hpo
      rw [hpo] at hal
      unfold allocate_payload at hal
      by_cases hsp : free_space P p <
          get_payload_count P (E.payload_length_kv key value) * P.align
      · rw [if_pos hsp] at hal
        exact (congrArg Prod.fst hal).symm
      · rw [if_neg hsp] at hal
        have := congrArg Prod.snd hal
        simp at this
    cases po with
    | none =>
      have hni : node_insert P KO E p key value = (p1, .full) := by
        simp only [node_insert, insert_key, hft, Bool.false_eq_true, if_false, hal]
      rw [hni, hp1 rfl]
      exact ⟨by simp [hnp], fun h => by simp at h, fun _ => rfl⟩
    | some payload =>
      rcases his : insert_slot P p1 (find_slot P KO E p key false).1 with ⟨p2, ok⟩
      have hp2 : ok = false → p2 = p1 := by
        intro hok
        rw [hok] at his
        unfold insert_slot at his
        by_cases hsp : free_space P p1 < P.slotSize
        · rw [if_pos hsp] at his
          exact (congrArg Prod.fst his).symm
        · rw [if_neg hsp] at his
          have := congrArg Prod.snd his
          simp at this
      cases ok with
      | false =>
        have hni : node_insert P KO E p key value =
            (free_payload P p2 payload (E.payload_length_kv key value), .full) := by
          simp only [node_insert, insert_key, hft, Bool.false_eq_true, if_false, hal, his]
        rw [hni]
        have hrestore : free_payload P p2 payload (E.payload_length_kv key value) = p := by
          rw [hp2 rfl]
          exact free_payload_allocate P hA p p1 (E.payload_length_kv key value) payload hal
        rw [hrestore]
        exact ⟨by simp [hnp], fun h => by simp at h, fun _ => rfl⟩
      | true =>
        have hni : (node_insert P KO E p key value).2 = .inserted := by
          simp only [node_insert, insert_key, hft, Bool.false_eq_true, if_false, hal, his]
        refine ⟨?_, ?_, ?_⟩
        · rw [hni]
          simp [hnp]
        · rw [hni]; intro h; simp at h
        · rw [hni]; intro h; simp at h

/-- Witness for C6 on the single-record page holding `kA`: re-inserting `kA`
reports the duplicate error and leaves the page unchanged. -/
theorem C6_insert_duplicate_and_full_witness :
    ((node_insert P64 KO_str E_leaf pageA kA [9]).2 = .dup ↔
      ∃ i, i < pageA.slots.length ∧ (read_slot P64 E_leaf pageA i).1 = kA) ∧
    ((node_insert P64 KO_str E_leaf pageA kA [9]).2 = .dup →
      (node_insert P64 KO_str E_leaf pageA kA [9]).1 = pageA) ∧
    ((node_insert P64 KO_str E_leaf pageA kA [9]).2 = .full →
      (node_insert P64 KO_str E_leaf pageA kA [9]).1 = pageA) :=
  C6_insert_duplicate_and_full P64 KO_str E_leaf pageA kA [9] (by decide)
    (fun a b => beq_iff_eq) (sorted_of_pairwise _ (by decide)) (by decide)

/-- Counterexample to C6 as stated: on the sorted page holding the
PMNK-colliding keys `kA` and `kB`, re-inserting the present key `kA` does
*not* fail with the duplicate error — the binary search lands on slot 1 and
the forward walk never revisits slot 0 — so a second copy is inserted. -/
theorem C6_counterexample :
    is_sorted P64 KO_str E_leaf pageAB = true ∧
    (read_slot P64 E_leaf pageAB 0).1 = kA ∧
    pageAB.slots.length = 2 ∧
    (node_insert P64 KO_str E_leaf pageAB kA [9]).2 = InsResult.inserted :=
  ⟨by decide, by decide, by decide, by decide⟩

/-- C1 (code bug, evaluated at the failing input): into a freshly constructed
tree, `put(kA, [7], upsert = false)` and `put(kB, [8])` insert the two
distinct PMNK-colliding keys — both records sit in the root leaf — yet
`get(kA)` returns false (absence), because `KeyValueArray`-style find lands
mid-run on the equal-PMNK group and only walks forward.  `get(kB)` works. -/
theorem C1_round_trip_fails :
    treeAB.rootId = 1 ∧
    ((treeAB.get 1).map fun leaf =>
      ((read_slot P64 E_leaf leaf.page 0).1, (read_slot P64 E_leaf leaf.page 1).1,
        leaf.page.slots.length)) = some (kA, kB, 2) ∧
    (tree_get P64 8 treeAB kB).2 = (true, some [8]) ∧
    (tree_get P64 8 treeAB kA).2.1 = false :=
  ⟨by decide, by decide, by decide, by decide⟩

/-- C2 (code bug, evaluated at the `TestGrowth.Adoption` scenario): the child
has foster child 2 under foster key `key3`; `try_adopt` succeeds and inserts
the separator `(key3, 2)` into the parent and unsets the child's foster
pointer — but the child's high fence is *not* set to the former foster key
(it stays infinity) and the foster key field is not even cleared, contrary to
the claim, the spec and the repository's own test expectations
(`test_node.cpp` lines 435-441). -/
theorem C2_adopt_leaves_child_fences_stale :
    get_foster_child P64 grownPair.2.1 = some 2 ∧
    get_foster_key P64 grownPair.2.1 = some (tkey 3) ∧
    adoptResult.2.2.2 = true ∧
    adoptResult.1.page.slots.length = 2 ∧
    read_slot P64 E_branch adoptResult.1.page 1 = (tkey 3, 2) ∧
    get_foster_child P64 adoptResult.2.1 = none ∧
    get_high_key P64 adoptResult.2.1 = none ∧
    (get_foster_key P64 adoptResult.2.1).isSome = true :=
  ⟨by decide, by decide, by decide, by decide, by decide, by decide, by decide, by decide⟩

/-- Block rounding covers the requested length: `length` bytes fit in
`get_payload_count` blocks. -/
theorem le_get_payload_count_mul (P : PageParams) (hA : 0 < P.align) (len : Nat) :
    len ≤ get_payload_count P len * P.align := by
  have hmod := Nat.div_add_mod len P.align
  have hlt : len % P.align < P.align := Nat.mod_lt _ hA
  unfold get_payload_count
  by_cases h : len % P.align = 0
  · rw [if_neg (by simp [h]), Nat.add_zero]
    exact le_of_eq (Nat.div_mul_cancel (Nat.dvd_of_mod_eq_zero h)).symm
  · rw [if_pos (by simp [h]), Nat.add_mul, Nat.one_mul]
    have hc : len / P.align * P.align = P.align * (len / P.align) := Nat.mul_comm _ _
    omega

/-- Reading back an in-range `write_range`: the written bytes followed by the
untouched tail. -/
theorem drop_write_range (l : List Byte) (off : Nat) (xs : List Byte)
    (h : off + xs.length ≤ l.length) :
    (write_range l off xs).drop off = xs ++ l.drop (off + xs.length) := by
  unfold write_range
  rw [List.take_of_length_le (l := xs) (by omega), List.append_assoc]
  exact List.drop_left' (by rw [List.length_take]; omega)

/-- `DefaultEncoder<string, V, P>::decode` recovers the pair from `encode`'s
bytes followed by arbitrary trailing bytes, for in-range lengths. -/
theorem encSV_decode_encode (w : Nat) (k : List Byte) (v : Nat) (rest : List Byte)
    (hk : k.length < 65536) (hv : v < 256 ^ w) :
    encSV_decode w (encSV_encode w k v ++ rest) = (k, v) := by
  have h2 : (65536 : Nat) = 256 ^ 2 := by norm_num
  have hke : encSV_encode w k v ++ rest =
      to_bytes_le 2 k.length ++ (k ++ (to_bytes_le w v ++ rest)) := by
    simp [encSV_encode, encode_uint16, List.append_assoc]
  rw [hke]
  have hklen : read_scalar 2 (to_bytes_le 2 k.length ++ (k ++ (to_bytes_le w v ++ rest)))
      = k.length := by rw [read_scalar_to_bytes, Nat.mod_eq_of_lt (h2 ▸ hk)]
  have hdk : (to_bytes_le 2 k.length ++ (k ++ (to_bytes_le w v ++ rest))).drop (2 + k.length)
      = to_bytes_le w v ++ rest := by
    rw [← List.drop_drop, drop_to_bytes_le, List.drop_left' rfl]
  simp only [encSV_decode, hklen, hdk, drop_to_bytes_le,
    List.take_left' (rfl : k.length = k.length), read_scalar_to_bytes,
    Nat.mod_eq_of_lt hv]

/-- Inserting the minimum-key sentinel with an 8-byte pointer value into an
empty branch page succeeds whenever one branch entry fits, and the single
resulting slot decodes back to the entry. -/
theorem node_insert_empty_branch (P : PageParams) (hA : 0 < P.align) (id : Nat)
    (hsp : get_payload_count P 10 * P.align + P.slotSize ≤ P.payloadCount * P.align)
    (hid : id < 256 ^ 8) :
    ∃ pg : Page,
      node_insert P KO_str E_branch (Page.empty P) ([] : List Byte) id = (pg, .inserted) ∧
      pg.slots.length = 1 ∧ read_slot P E_branch pg 0 = ([], id) := by
  have hfind : find_slot P KO_str E_branch (Page.empty P) ([] : List Byte) false
      = (0, false, (none : Option Nat)) := by
    have hbs : binary_search_full [] (E_branch.get_pmnk ([] : List Byte)) = (0, false) := rfl
    simp only [find_slot, Page.empty, List.map_nil, hbs, List.length_nil,
      Bool.false_eq_true, if_false, false_and]
  have hplen : E_branch.payload_length_kv ([] : List Byte) id = 10 := rfl
  have h10 : (10 : Nat) ≤ get_payload_count P 10 * P.align := le_get_payload_count_mul P hA 10
  have hfs : free_space P (Page.empty P) = P.payloadCount * P.align := by
    simp [free_space, Page.empty]
  have halloc : allocate_payload P (Page.empty P) 10 =
      (⟨[], P.payloadCount - get_payload_count P 10,
        List.replicate (P.payloadCount * P.align) (0 : Byte)⟩,
        some (P.payloadCount - get_payload_count P 10)) := by
    simp only [allocate_payload, hfs]
    rw [if_neg (by omega)]
    rfl
  have hfree1 : ¬ (free_space P (⟨[], P.payloadCount - get_payload_count P 10,
      List.replicate (P.payloadCount * P.align) (0 : Byte)⟩ : Page) < P.slotSize) := by
    simp only [free_space, List.length_nil, Nat.zero_mul, Nat.sub_zero]
    rw [Nat.sub_mul]
    omega
  have hins : insert_slot P (⟨[], P.payloadCount - get_payload_count P 10,
      List.replicate (P.payloadCount * P.align) (0 : Byte)⟩ : Page) 0 =
      (⟨[Slot.dflt], P.payloadCount - get_payload_count P 10,
        List.replicate (P.payloadCount * P.align) (0 : Byte)⟩, true) := by
    simp only [insert_slot]
    rw [if_neg hfree1]
    rfl
  have hni : node_insert P KO_str E_branch (Page.empty P) ([] : List Byte) id
      = (write_payload P (⟨[⟨0, P.payloadCount - get_payload_count P 10, false⟩],
          P.payloadCount - get_payload_count P 10,
          List.replicate (P.payloadCount * P.align) (0 : Byte)⟩ : Page)
        (P.payloadCount - get_payload_count P 10) (encSV_encode 8 [] id), .inserted) := by
    simp only [node_insert, insert_key, hfind, hplen, halloc, hins,
      Bool.false_eq_true, if_false]
    rfl
  refine ⟨_, hni, rfl, ?_⟩
  have hlen : (encSV_encode 8 ([] : List Byte) id).length = 10 := by
    simp [encSV_encode, encode_uint16, to_bytes_le_length]
  have hbound : (P.payloadCount - get_payload_count P 10) * P.align +
      (encSV_encode 8 ([] : List Byte) id).length ≤
      (List.replicate (P.payloadCount * P.align) (0 : Byte)).length := by
    rw [hlen, List.length_replicate, Nat.sub_mul]
    omega
  show E_branch.decode _ _ = _
  simp only [read_slot, get_slot, write_payload, payload_bytes, List.getD_cons_zero]
  rw [drop_write_range _ _ _ hbound]
  exact encSV_decode_encode 8 [] id _ (by simp) hid

/-- C4 (confirmed; `Branch::grow` is absent from `src/` and modelled from the
spec): whenever one branch entry fits an empty page and the child's id fits
the 8-byte pointer, `grow(root, new_child)` succeeds; it moves the root's page
(records), foster payload table (hence foster pointer and foster key) into
`new_child`, which keeps its own level and id; the root keeps its id (the
tree's root pointer is unchanged), gets level `level(new_child) + 1`, and
holds exactly one branch entry, keyed by the minimum-key sentinel `""`,
pointing to `new_child`. -/
theorem C4_grow_moves_root (P : PageParams) (root new_child : FNode)
    (hA : 0 < P.align)
    (hsp : get_payload_count P 10 * P.align + P.slotSize ≤ P.payloadCount * P.align)
    (hid : new_child.id < 256 ^ 8) :
    (grow P root new_child).2.2 = true ∧
    (grow P root new_child).2.1.page = root.page ∧
    (grow P root new_child).2.1.fosterPayloads = root.fosterPayloads ∧
    (grow P root new_child).2.1.fosterValid = root.fosterValid ∧
    get_foster_child P (grow P root new_child).2.1 = get_foster_child P root ∧
    get_foster_key P (grow P root new_child).2.1 = get_foster_key P root ∧
    (grow P root new_child).2.1.level = new_child.level ∧
    (grow P root new_child).2.1.id = new_child.id ∧
    (grow P root new_child).1.level = new_child.level + 1 ∧
    (grow P root new_child).1.id = root.id ∧
    (grow P root new_child).1.page.slots.length = 1 ∧
    read_slot P E_branch (grow P root new_child).1.page 0 = ([], new_child.id) := by
  obtain ⟨pg, heq, hlen1, hread⟩ := node_insert_empty_branch P hA new_child.id hsp hid
  simp only [grow, construct_node, heq]
  refine ⟨?_, ?_, ?_, ?_, ?_, ?_, ?_, ?_, ?_, ?_, hlen1, hread⟩ <;> trivial

/-- Witness for C4 at the concrete page geometry: growing a fresh root over a
fresh child node. -/
theorem C4_grow_moves_root_witness :
    (grow P64 (construct_node P64 1) (construct_node P64 2)).2.2 = true ∧
    (grow P64 (construct_node P64 1) (construct_node P64 2)).1.page.slots.length = 1 := by
  obtain ⟨h1, -, -, -, -, -, -, -, -, -, h11, -⟩ :=
    C4_grow_moves_root P64 (construct_node P64 1) (construct_node P64 2)
      (by decide) (by decide) (by decide)
  exact ⟨h1, h11⟩

/-- An in-range `write_range` preserves the heap size. -/
theorem write_range_length (l : List Byte) (off : Nat) (xs : List Byte)
    (h : off + xs.length ≤ l.length) :
    (write_range l off xs).length = l.length := by
  simp only [write_range, List.length_append, List.length_take, List.length_drop]
  omega

/-- A write leaves the bytes beyond it untouched. -/
theorem drop_write_range_of_le (l : List Byte) (off : Nat) (xs : List Byte) (m : Nat)
    (hin : off + xs.length ≤ l.length) (h : off + xs.length ≤ m) :
    (write_range l off xs).drop m = l.drop m := by
  obtain ⟨k, hk⟩ := Nat.exists_eq_add_of_le h
  have hx : xs.take (l.length - off) = xs := List.take_of_length_le (by omega)
  have hsplit : write_range l off xs =
      (l.take off ++ xs) ++ l.drop (off + xs.length) := by
    rw [write_range, hx, List.append_assoc]
  have hlen : (l.take off ++ xs).length = off + xs.length := by
    rw [List.length_append, List.length_take]; omega
  subst hk
  rw [hsplit, ← hlen, List.drop_append, List.drop_drop]

/-- Equal prefixes have equal inner segments. -/
theorem seg_of_take_eq (l₁ l₂ : List Byte) (m a b : Nat)
    (h : l₁.take m = l₂.take m) (hab : a + b ≤ m) :
    (l₁.drop a).take b = (l₂.drop a).take b := by
  have h1 : ((l₁.take m).drop a).take b = ((l₂.take m).drop a).take b := by rw [h]
  rw [List.drop_take, List.drop_take, List.take_take, List.take_take] at h1
  simpa [Nat.min_eq_left (show b ≤ m - a by omega)] using h1

/-- Equal prefixes yield equal scalar reads at the same inner offset. -/
theorem read_scalar_of_take_eq (l₁ l₂ : List Byte) (w a m : Nat)
    (h : l₁.take m = l₂.take m) (hw : a + w ≤ m) :
    read_scalar w (l₁.drop a) = read_scalar w (l₂.drop a) := by
  unfold read_scalar
  rw [seg_of_take_eq l₁ l₂ m a w h hw]

/-- `DefaultEncoder<string, string, P>` reads only the first `payload_length`
bytes of a payload. -/
theorem encOK_leaf : EncOK E_leaf := by
  refine ⟨?_, ?_, ?_⟩
  · intro l₁ l₂ m hle h
    have hpl : E_leaf.payload_length l₁ = encSS_payload_length l₁ := rfl
    rw [hpl] at hle
    simp only [encSS_payload_length] at hle
    simp only [E_leaf, encSS_payload_length]
    have hk : read_scalar 2 l₂ = read_scalar 2 l₁ := by
      have := read_scalar_of_take_eq l₁ l₂ 2 0 m h (by omega)
      simpa using this.symm
    have hv : read_scalar 2 (l₂.drop (2 + read_scalar 2 l₁)) =
        read_scalar 2 (l₁.drop (2 + read_scalar 2 l₁)) :=
      (read_scalar_of_take_eq l₁ l₂ 2 (2 + read_scalar 2 l₁) m h (by omega)).symm
    rw [hk, hv]
  · intro l₁ l₂ pm m hle h
    have hpl : E_leaf.payload_length l₁ = encSS_payload_length l₁ := rfl
    rw [hpl] at hle
    simp only [encSS_payload_length] at hle
    show encSS_decode l₂ = encSS_decode l₁
    have hk : read_scalar 2 l₂ = read_scalar 2 l₁ := by
      have := read_scalar_of_take_eq l₁ l₂ 2 0 m h (by omega)
      simpa using this.symm
    have hkey : (l₂.drop 2).take (read_scalar 2 l₁) = (l₁.drop 2).take (read_scalar 2 l₁) :=
      (seg_of_take_eq l₁ l₂ m 2 (read_scalar 2 l₁) h (by omega)).symm
    have hv : read_scalar 2 (l₂.drop (2 + read_scalar 2 l₁)) =
        read_scalar 2 (l₁.drop (2 + read_scalar 2 l₁)) :=
      (read_scalar_of_take_eq l₁ l₂ 2 (2 + read_scalar 2 l₁) m h (by omega)).symm
    have hval : ((l₂.drop (2 + read_scalar 2 l₁)).drop 2).take
        (read_scalar 2 (l₁.drop (2 + read_scalar 2 l₁)))
        = ((l₁.drop (2 + read_scalar 2 l₁)).drop 2).take
          (read_scalar 2 (l₁.drop (2 + read_scalar 2 l₁))) := by
      rw [List.drop_drop, List.drop_drop]
      exact (seg_of_take_eq l₁ l₂ m (2 + read_scalar 2 l₁ + 2)
        (read_scalar 2 (l₁.drop (2 + read_scalar 2 l₁))) h (by omega)).symm
    simp only [encSS_decode, hk, hkey, hv, hval]
  · intro l
    show 0 < encSS_payload_length l
    simp only [encSS_payload_length]
    omega

/-- `DefaultEncoder<string, NodePointer, P>` reads only the first
`payload_length` bytes of a payload. -/
theorem encOK_branch : EncOK E_branch := by
  refine ⟨?_, ?_, ?_⟩
  · intro l₁ l₂ m hle h
    have hpl : E_branch.payload_length l₁ = encSV_payload_length 8 l₁ := rfl
    rw [hpl] at hle
    simp only [encSV_payload_length] at hle
    show encSV_payload_length 8 l₂ = encSV_payload_length 8 l₁
    have hk : read_scalar 2 l₂ = read_scalar 2 l₁ := by
      have := read_scalar_of_take_eq l₁ l₂ 2 0 m h (by omega)
      simpa using this.symm
    rw [encSV_payload_length, encSV_payload_length, hk]
  · intro l₁ l₂ pm m hle h
    have hpl : E_branch.payload_length l₁ = encSV_payload_length 8 l₁ := rfl
    rw [hpl] at hle
    simp only [encSV_payload_length] at hle
    show encSV_decode 8 l₂ = encSV_decode 8 l₁
    have hk : read_scalar 2 l₂ = read_scalar 2 l₁ := by
      have := read_scalar_of_take_eq l₁ l₂ 2 0 m h (by omega)
      simpa using this.symm
    have hkey : (l₂.drop 2).take (read_scalar 2 l₁) = (l₁.drop 2).take (read_scalar 2 l₁) :=
      (seg_of_take_eq l₁ l₂ m 2 (read_scalar 2 l₁) h (by omega)).symm
    have hv : read_scalar 8 (l₂.drop (2 + read_scalar 2 l₁)) =
        read_scalar 8 (l₁.drop (2 + read_scalar 2 l₁)) :=
      (read_scalar_of_take_eq l₁ l₂ 8 (2 + read_scalar 2 l₁) m h (by omega)).symm
    simp only [encSV_decode, hk, hkey, hv]
  · intro l
    show 0 < encSV_payload_length 8 l
    simp only [encSV_payload_length]
    omega

/-- Inserting at an in-range index splits the list there. -/
theorem insertIdx_eq_take_cons_drop {α : Type} (l : List α) (j : Nat) (x : α)
    (h : j ≤ l.length) : l.insertIdx j x = l.take j ++ x :: l.drop j := by
  induction l generalizing j with
  | nil =>
    have hj : j = 0 := by simpa using h
    subst hj
    simp
  | cons a as ih =>
    cases j with
    | zero => simp
    | succ j =>
      simp only [List.insertIdx_succ_cons, List.take_succ_cons, List.drop_succ_cons,
        List.cons_append, List.cons.injEq, true_and]
      exact ih j (by simpa using h)

/-- Setting the element right after a prefix. -/
theorem set_append_cons {α : Type} (l₁ l₂ : List α) (a b : α) :
    (l₁ ++ a :: l₂).set l₁.length b = l₁ ++ b :: l₂ := by
  induction l₁ with
  | nil => simp
  | cons c cs ih => simp [ih]

/-- Erasing the element right after a prefix. -/
theorem eraseIdx_append_cons {α : Type} (l₁ l₂ : List α) (a : α) :
    (l₁ ++ a :: l₂).eraseIdx l₁.length = l₁ ++ l₂ := by
  induction l₁ with
  | nil => simp
  | cons c cs ih => simp [ih]

/-- There are as many decoded records as slots. -/
theorem slot_recs_length {K V : Type} (P : PageParams) (E : EncoderType K V) (p : Page) :
    (slot_recs P E p).length = p.slots.length := by
  simp [slot_recs]

/-- Dropping `i` records exposes the decoded record of slot `i`. -/
theorem slot_recs_drop_cons {K V : Type} (P : PageParams) (E : EncoderType K V) (p : Page)
    (i : Nat) (hi : i < p.slots.length) :
    (slot_recs P E p).drop i =
      E.decode (p.heap.drop ((get_slot p i).ptr * P.align)) (get_slot p i).key ::
        (slot_recs P E p).drop (i + 1) := by
  have hds : p.slots.drop i = p.slots.get ⟨i, hi⟩ :: p.slots.drop (i + 1) :=
    List.drop_eq_getElem_cons hi
  have hgs : get_slot p i = p.slots.get ⟨i, hi⟩ := by
    rw [get_slot, List.getD_eq_getElem _ _ hi]
    rfl
  unfold slot_recs
  rw [← List.map_drop, ← List.map_drop, hds, hgs]
  rfl

/-- One successful iteration of the `move_records` copy loop: the source
record `i` is inserted into the destination at slot `j` with a freshly
allocated payload below `payload_begin`; everything already on the
destination page is untouched, well-formedness is preserved, and the record
list gains exactly the decoded source record at position `j`. -/
theorem copy_step {K V : Type} (P : PageParams) (E : EncoderType K V) (hE : EncOK E)
    (hA : 0 < P.align) (src d : Page) (hS : PageWF P E src) (hD : PageWF P E d)
    (i j : Nat) (hi : i < src.slots.length) (hj : j ≤ d.slots.length)
    (d1 d2 : Page) (pd : Nat)
    (h1 : insert_slot P d j = (d1, true))
    (h2 : allocate_payload P d1 (rec_len P E src (get_slot src i).ptr) = (d2, some pd))
    (d4 : Page)
    (h4 : write_payload P (set_slot d2 j
        ⟨(get_slot src i).key, pd, (get_slot src i).ghost⟩) pd
        ((payload_bytes P src (get_slot src i).ptr).take
          (rec_len P E src (get_slot src i).ptr)) = d4) :
    pd + rec_cnt P E src (get_slot src i).ptr = d.payloadBegin ∧
    d4.slots = d.slots.take j ++
      ⟨(get_slot src i).key, pd, (get_slot src i).ghost⟩ :: d.slots.drop j ∧
    d4.payloadBegin = pd ∧
    d4.heap.length = d.heap.length ∧
    (∀ m, d.payloadBegin * P.align ≤ m → d4.heap.drop m = d.heap.drop m) ∧
    rec_len P E d4 pd = rec_len P E src (get_slot src i).ptr ∧
    PageWF P E d4 ∧
    slot_recs P E d4 = (slot_recs P E d).take j ++
      E.decode (src.heap.drop ((get_slot src i).ptr * P.align)) (get_slot src i).key ::
        (slot_recs P E d).drop j := by
  obtain ⟨hSheap, hSpb, hSslots, hSdisj⟩ := hS
  obtain ⟨hDheap, hDpb, hDslots, hDdisj⟩ := hD
  have hmem : get_slot src i ∈ src.slots := by
    rw [get_slot, List.getD_eq_getElem _ _ hi]
    exact List.getElem_mem _
  obtain ⟨hqlb, hqub⟩ := hSslots _ hmem
  -- abbreviations
  have hlen_le : rec_len P E src (get_slot src i).ptr ≤
      rec_cnt P E src (get_slot src i).ptr * P.align :=
    le_get_payload_count_mul P hA _
  have hpblen : (payload_bytes P src (get_slot src i).ptr).length =
      P.payloadCount * P.align - (get_slot src i).ptr * P.align := by
    rw [payload_bytes, List.length_drop, hSheap]
  have hq_bytes : (get_slot src i).ptr * P.align +
      rec_cnt P E src (get_slot src i).ptr * P.align ≤ P.payloadCount * P.align := by
    rw [← Nat.add_mul]
    exact Nat.mul_le_mul_right _ hqub
  have hxs : ((payload_bytes P src (get_slot src i).ptr).take
      (rec_len P E src (get_slot src i).ptr)).length =
      rec_len P E src (get_slot src i).ptr := by
    rw [List.length_take, hpblen]
    omega
  -- invert the insert
  have hd1 : d1 = { d with slots := d.slots.insertIdx j (d.slots.getD j Slot.dflt) } := by
    unfold insert_slot at h1
    split at h1
    · injection h1 with _ hbad
      exact Bool.noConfusion hbad
    · injection h1 with h1a _
      exact h1a.symm
  subst hd1
  -- invert the allocation
  have hfs1 : free_space P { d with slots := d.slots.insertIdx j (d.slots.getD j Slot.dflt) } =
      d.payloadBegin * P.align - (d.slots.length + 1) * P.slotSize := by
    unfold free_space
    rw [List.length_insertIdx _ _ hj]
  have halloc : ¬ (free_space P { d with slots := d.slots.insertIdx j (d.slots.getD j Slot.dflt) } <
        rec_cnt P E src (get_slot src i).ptr * P.align) ∧
      d2 = (⟨d.slots.insertIdx j (d.slots.getD j Slot.dflt),
             d.payloadBegin - rec_cnt P E src (get_slot src i).ptr, d.heap⟩ : Page) ∧
      pd = d.payloadBegin - rec_cnt P E src (get_slot src i).ptr := by
    simp only [allocate_payload] at h2
    rw [show get_payload_count P (rec_len P E src (get_slot src i).ptr) =
      rec_cnt P E src (get_slot src i).ptr from rfl] at h2
    split at h2
    · injection h2 with _ hbad
      exact Option.noConfusion hbad
    · rename_i hcond
      injection h2 with h2a h2b
      injection h2b with h2b
      exact ⟨hcond, h2a.symm, h2b.symm⟩
  obtain ⟨hfs, hd2, hpd⟩ := halloc
  have hcpb : rec_cnt P E src (get_slot src i).ptr ≤ d.payloadBegin := by
    rw [hfs1] at hfs
    have h1 := Nat.le_of_not_lt hfs
    have h2 : rec_cnt P E src (get_slot src i).ptr * P.align ≤ d.payloadBegin * P.align := by
      omega
    exact Nat.le_of_mul_le_mul_right h2 hA
  have hpdc : pd + rec_cnt P E src (get_slot src i).ptr = d.payloadBegin := by omega
  subst hd2
  -- the slot vector after insert and set
  have hjl : (d.slots.take j).length = j := by
    rw [List.length_take]
    omega
  have hslots4 : (d.slots.insertIdx j (d.slots.getD j Slot.dflt)).set j
      ⟨(get_slot src i).key, pd, (get_slot src i).ghost⟩ =
      d.slots.take j ++
        ⟨(get_slot src i).key, pd, (get_slot src i).ghost⟩ :: d.slots.drop j := by
    have hset := set_append_cons (d.slots.take j) (d.slots.drop j)
      (d.slots.getD j Slot.dflt) (⟨(get_slot src i).key, pd, (get_slot src i).ghost⟩ : Slot)
    rw [hjl] at hset
    rw [insertIdx_eq_take_cons_drop _ _ _ hj]
    exact hset
  -- the final page, explicitly
  have hd4 : d4 = ⟨d.slots.take j ++
      ⟨(get_slot src i).key, pd, (get_slot src i).ghost⟩ :: d.slots.drop j,
      pd,
      write_range d.heap (pd * P.align)
        ((payload_bytes P src (get_slot src i).ptr).take
          (rec_len P E src (get_slot src i).ptr))⟩ := by
    rw [← h4, hpd]
    unfold write_payload set_slot
    rw [hpd] at hslots4
    simp only [hslots4]
  subst hd4
  -- byte-level facts
  have hwin : pd * P.align +
      ((payload_bytes P src (get_slot src i).ptr).take
        (rec_len P E src (get_slot src i).ptr)).length ≤ d.payloadBegin * P.align := by
    rw [hxs]
    calc pd * P.align + rec_len P E src (get_slot src i).ptr
        ≤ pd * P.align + rec_cnt P E src (get_slot src i).ptr * P.align :=
          Nat.add_le_add_left hlen_le _
      _ = (pd + rec_cnt P E src (get_slot src i).ptr) * P.align := (Nat.add_mul _ _ _).symm
      _ = d.payloadBegin * P.align := by rw [hpdc]
  have hpbPC : d.payloadBegin * P.align ≤ P.payloadCount * P.align :=
    Nat.mul_le_mul_right _ hDpb
  have hwin_heap : pd * P.align +
      ((payload_bytes P src (get_slot src i).ptr).take
        (rec_len P E src (get_slot src i).ptr)).length ≤ d.heap.length := by
    rw [hDheap]
    omega
  have hdrop_hi : ∀ m, d.payloadBegin * P.align ≤ m →
      (write_range d.heap (pd * P.align)
        ((payload_bytes P src (get_slot src i).ptr).take
          (rec_len P E src (get_slot src i).ptr))).drop m = d.heap.drop m := by
    intro m hm
    exact drop_write_range_of_le _ _ _ m hwin_heap (by omega)
  have hlen4 : (write_range d.heap (pd * P.align)
      ((payload_bytes P src (get_slot src i).ptr).take
        (rec_len P E src (get_slot src i).ptr))).length = d.heap.length :=
    write_range_length _ _ _ hwin_heap
  -- the new payload reads back as the source prefix plus junk
  have hnew_bytes : (write_range d.heap (pd * P.align)
      ((payload_bytes P src (get_slot src i).ptr).take
        (rec_len P E src (get_slot src i).ptr))).drop (pd * P.align) =
      (payload_bytes P src (get_slot src i).ptr).take
        (rec_len P E src (get_slot src i).ptr) ++
      d.heap.drop (pd * P.align +
        ((payload_bytes P src (get_slot src i).ptr).take
          (rec_len P E src (get_slot src i).ptr)).length) :=
    drop_write_range _ _ _ hwin_heap
  have htake_eq : (payload_bytes P src (get_slot src i).ptr).take
        (rec_len P E src (get_slot src i).ptr) =
      ((payload_bytes P src (get_slot src i).ptr).take
          (rec_len P E src (get_slot src i).ptr) ++
        d.heap.drop (pd * P.align +
          ((payload_bytes P src (get_slot src i).ptr).take
            (rec_len P E src (get_slot src i).ptr)).length)).take
        (rec_len P E src (get_slot src i).ptr) := by
    rw [List.take_left' hxs]
  have hplen_new : E.payload_length
      ((payload_bytes P src (get_slot src i).ptr).take
          (rec_len P E src (get_slot src i).ptr) ++
        d.heap.drop (pd * P.align +
          ((payload_bytes P src (get_slot src i).ptr).take
            (rec_len P E src (get_slot src i).ptr)).length)) =
      rec_len P E src (get_slot src i).ptr := by
    exact hE.plen_ext (payload_bytes P src (get_slot src i).ptr) _
      (rec_len P E src (get_slot src i).ptr) (le_refl _) htake_eq
  have hdec_new : E.decode
      ((payload_bytes P src (get_slot src i).ptr).take
          (rec_len P E src (get_slot src i).ptr) ++
        d.heap.drop (pd * P.align +
          ((payload_bytes P src (get_slot src i).ptr).take
            (rec_len P E src (get_slot src i).ptr)).length)) (get_slot src i).key =
      E.decode (src.heap.drop ((get_slot src i).ptr * P.align)) (get_slot src i).key := by
    exact hE.dec_ext (payload_bytes P src (get_slot src i).ptr) _
      (get_slot src i).key (rec_len P E src (get_slot src i).ptr) (le_refl _) htake_eq
  have hreclen_new : rec_len P E
      (⟨d.slots.take j ++
        ⟨(get_slot src i).key, pd, (get_slot src i).ghost⟩ :: d.slots.drop j, pd,
        write_range d.heap (pd * P.align)
          ((payload_bytes P src (get_slot src i).ptr).take
            (rec_len P E src (get_slot src i).ptr))⟩ : Page) pd =
      rec_len P E src (get_slot src i).ptr := by
    show E.payload_length _ = _
    rw [hnew_bytes]
    exact hplen_new
  -- old payloads are untouched
  have hold_bytes : ∀ t ∈ d.slots,
      (write_range d.heap (pd * P.align)
        ((payload_bytes P src (get_slot src i).ptr).take
          (rec_len P E src (get_slot src i).ptr))).drop (t.ptr * P.align) =
      d.heap.drop (t.ptr * P.align) := by
    intro t ht
    exact hdrop_hi _ (Nat.mul_le_mul_right _ (hDslots t ht).1)
  have hreclen_old : ∀ t ∈ d.slots,
      rec_len P E
        (⟨d.slots.take j ++
          ⟨(get_slot src i).key, pd, (get_slot src i).ghost⟩ :: d.slots.drop j, pd,
          write_range d.heap (pd * P.align)
            ((payload_bytes P src (get_slot src i).ptr).take
              (rec_len P E src (get_slot src i).ptr))⟩ : Page) t.ptr =
        rec_len P E d t.ptr := by
    intro t ht
    show E.payload_length _ = E.payload_length _
    rw [hold_bytes t ht]
  have hreccnt_old : ∀ t ∈ d.slots,
      rec_cnt P E
        (⟨d.slots.take j ++
          ⟨(get_slot src i).key, pd, (get_slot src i).ghost⟩ :: d.slots.drop j, pd,
          write_range d.heap (pd * P.align)
            ((payload_bytes P src (get_slot src i).ptr).take
              (rec_len P E src (get_slot src i).ptr))⟩ : Page) t.ptr =
        rec_cnt P E d t.ptr := by
    intro t ht
    unfold rec_cnt
    rw [hreclen_old t ht]
  refine ⟨hpdc, rfl, rfl, hlen4, hdrop_hi, hreclen_new, ?_, ?_⟩
  · -- well-formedness of the new page
    refine ⟨by rw [hlen4, hDheap], by show pd ≤ P.payloadCount; omega, ?_, ?_⟩
    · intro t ht
      rw [List.mem_append, List.mem_cons] at ht
      rcases ht with ht | ht | ht
      · have htd : t ∈ d.slots := List.take_subset _ _ ht
        obtain ⟨hlb, hub⟩ := hDslots t htd
        rw [hreccnt_old t htd]
        exact ⟨by show pd ≤ t.ptr; omega, hub⟩
      · subst ht
        refine ⟨le_refl _, ?_⟩
        show pd + rec_cnt P E _ pd ≤ _
        unfold rec_cnt
        rw [hreclen_new]
        show pd + rec_cnt P E src (get_slot src i).ptr ≤ _
        omega
      · have htd : t ∈ d.slots := List.drop_subset _ _ ht
        obtain ⟨hlb, hub⟩ := hDslots t htd
        rw [hreccnt_old t htd]
        exact ⟨by show pd ≤ t.ptr; omega, hub⟩
    · -- pairwise disjointness
      have hsplitD : d.slots = d.slots.take j ++ d.slots.drop j := (List.take_append_drop _ _).symm
      rw [hsplitD, List.pairwise_append] at hDdisj
      obtain ⟨hPtake, hPdrop, hcross⟩ := hDdisj
      rw [List.pairwise_append]
      refine ⟨?_, ?_, ?_⟩
      · refine hPtake.imp_of_mem ?_
        intro a b ha hb hab
        have had : a ∈ d.slots := List.take_subset _ _ ha
        have hbd : b ∈ d.slots := List.take_subset _ _ hb
        rw [hreccnt_old a had, hreccnt_old b hbd]
        exact hab
      · rw [List.pairwise_cons]
        refine ⟨?_, ?_⟩
        · intro b hb
          have hbd : b ∈ d.slots := List.drop_subset _ _ hb
          left
          show pd + rec_cnt P E _ pd ≤ b.ptr
          unfold rec_cnt
          rw [hreclen_new]
          show pd + rec_cnt P E src (get_slot src i).ptr ≤ b.ptr
          have := (hDslots b hbd).1
          omega
        · refine hPdrop.imp_of_mem ?_
          intro a b ha hb hab
          have had : a ∈ d.slots := List.drop_subset _ _ ha
          have hbd : b ∈ d.slots := List.drop_subset _ _ hb
          rw [hreccnt_old a had, hreccnt_old b hbd]
          exact hab
      · intro a ha b hb
        have had : a ∈ d.slots := List.take_subset _ _ ha
        rw [List.mem_cons] at hb
        rcases hb with hb | hb
        · subst hb
          right
          show pd + rec_cnt P E _ pd ≤ a.ptr
          unfold rec_cnt
          rw [hreclen_new]
          show pd + rec_cnt P E src (get_slot src i).ptr ≤ a.ptr
          have := (hDslots a had).1
          omega
        · have hbd : b ∈ d.slots := List.drop_subset _ _ hb
          rw [hreccnt_old a had, hreccnt_old b hbd]
          exact hcross a ha b hb
  · -- the record list
    unfold slot_recs
    simp only [List.map_append, List.map_cons, List.map_take, List.map_drop]
    congr 1
    · simp only [← List.map_take]
      apply List.map_congr_left
      intro t ht
      have htd : t ∈ d.slots := List.take_subset _ _ ht
      rw [hold_bytes t htd]
    · congr 1
      · rw [hnew_bytes]
        exact hdec_new
      · simp only [← List.map_drop]
        apply List.map_congr_left
        intro t ht
        have htd : t ∈ d.slots := List.drop_subset _ _ ht
        rw [hold_bytes t htd]

/-- The copy loop of `move_records`, success case: the source records
`[i, last]` are inserted into the destination as slots `j, j+1, …`, below
`payload_begin`; the pre-existing destination records and payload bytes are
untouched and well-formedness is preserved. -/
theorem mr_copy_spec {K V : Type} (P : PageParams) (E : EncoderType K V) (hE : EncOK E)
    (hA : 0 < P.align) (src : Page) (hS : PageWF P E src) (last : Nat)
    (hlast : last < src.slots.length) :
    ∀ fuel i j d d' i' j', mr_copy P E fuel d src i j last = (d', i', j', true) →
      PageWF P E d → j ≤ d.slots.length → i ≤ last + 1 →
      i' = last + 1 ∧ j' = j + (last + 1 - i) ∧ PageWF P E d' ∧
      d'.slots.length = d.slots.length + (last + 1 - i) ∧
      slot_recs P E d' = (slot_recs P E d).take j ++
        (((slot_recs P E src).drop i).take (last + 1 - i) ++ (slot_recs P E d).drop j) ∧
      d'.payloadBegin ≤ d.payloadBegin ∧
      d'.heap.length = d.heap.length ∧
      (∀ m, d.payloadBegin * P.align ≤ m → d'.heap.drop m = d.heap.drop m) := by
  intro fuel
  induction fuel with
  | zero =>
    intro i j d d' i' j' heq
    simp [mr_copy] at heq
  | succ fuel ih =>
    intro i j d d' i' j' heq hD hj hile
    simp only [mr_copy] at heq
    by_cases hi : i ≤ last
    · rw [if_pos hi] at heq
      rw [show E.payload_length (payload_bytes P src (get_slot src i).ptr) =
        rec_len P E src (get_slot src i).ptr from rfl] at heq
      split at heq
      · -- insert_slot failed: the loop reports failure
        rename_i d1 hI
        simp at heq
      · rename_i d1 hI
        split at heq
        · -- allocation failed: the loop reports failure
          rename_i d2 hAl
          simp at heq
        · rename_i d2 pd hAl
          have hisrc : i < src.slots.length := by omega
          obtain ⟨hpdc, hslots4, hpb4, hlen4, hdrop4, hrl4, hWF4, hrecs4⟩ :=
            copy_step P E hE hA src d hS hD i j hisrc hj d1 d2 pd hI hAl _ rfl
          have hjlen : (d.slots.take j).length = j := by
            rw [List.length_take]
            omega
          have hlen_slots : (write_payload P (set_slot d2 j
              ⟨(get_slot src i).key, pd, (get_slot src i).ghost⟩) pd
              ((payload_bytes P src (get_slot src i).ptr).take
                (rec_len P E src (get_slot src i).ptr))).slots.length =
              d.slots.length + 1 := by
            rw [hslots4, List.length_append, List.length_cons, List.length_drop, hjlen]
            omega
          obtain ⟨hi', hj', hWF', hlen', hrecs', hpb', hhl', hdrop'⟩ :=
            ih (i + 1) (j + 1) _ d' i' j' heq hWF4 (by omega) (by omega)
          have hrjlen : ((slot_recs P E d).take j).length = j := by
            rw [List.length_take, slot_recs_length]
            omega
          have hrecs4' : slot_recs P E (write_payload P (set_slot d2 j
              ⟨(get_slot src i).key, pd, (get_slot src i).ghost⟩) pd
              ((payload_bytes P src (get_slot src i).ptr).take
                (rec_len P E src (get_slot src i).ptr))) =
              ((slot_recs P E d).take j ++
                [E.decode (src.heap.drop ((get_slot src i).ptr * P.align)) (get_slot src i).key]) ++
              (slot_recs P E d).drop j := by
            rw [hrecs4, List.append_assoc]
            rfl
          have htk : (slot_recs P E (write_payload P (set_slot d2 j
              ⟨(get_slot src i).key, pd, (get_slot src i).ghost⟩) pd
              ((payload_bytes P src (get_slot src i).ptr).take
                (rec_len P E src (get_slot src i).ptr)))).take (j + 1) =
              (slot_recs P E d).take j ++
                [E.decode (src.heap.drop ((get_slot src i).ptr * P.align)) (get_slot src i).key] := by
            rw [hrecs4']
            exact List.take_left' (by rw [List.length_append, hrjlen]; rfl)
          have hdr : (slot_recs P E (write_payload P (set_slot d2 j
              ⟨(get_slot src i).key, pd, (get_slot src i).ghost⟩) pd
              ((payload_bytes P src (get_slot src i).ptr).take
                (rec_len P E src (get_slot src i).ptr)))).drop (j + 1) =
              (slot_recs P E d).drop j := by
            rw [hrecs4']
            exact List.drop_left' (by rw [List.length_append, hrjlen]; rfl)
          have hseg : ((slot_recs P E src).drop i).take (last + 1 - i) =
              E.decode (src.heap.drop ((get_slot src i).ptr * P.align)) (get_slot src i).key ::
                ((slot_recs P E src).drop (i + 1)).take (last - i) := by
            rw [slot_recs_drop_cons P E src i hisrc]
            rw [show last + 1 - i = (last - i) + 1 from by omega]
            rfl
          refine ⟨hi', by omega, hWF', by omega, ?_, by omega, by rw [hhl', hlen4], ?_⟩
          · rw [hrecs', htk, hdr, hseg]
            rw [show last + 1 - (i + 1) = last - i from by omega]
            simp [List.append_assoc]
          · intro m hm
            have hm4 : pd * P.align ≤ m := by
              have : pd * P.align ≤ d.payloadBegin * P.align :=
                Nat.mul_le_mul_right _ (by omega)
              omega
            rw [hdrop' m (by rw [hpb4]; exact hm4), hdrop4 m hm]
    · rw [if_neg hi] at heq
      have hieq : i = last + 1 := by omega
      obtain ⟨hd, hi', hj', -⟩ : d = d' ∧ i = i' ∧ j = j' ∧ True := by
        injection heq with h1 h2
        injection h2 with h2 h3
        injection h3 with h3 _
        exact ⟨h1, h2, h3, trivial⟩
      subst hd hi' hj'
      rw [show last + 1 - i = 0 from by omega]
      refine ⟨hieq.symm ▸ rfl, by omega, hD, by omega, ?_, le_refl _, rfl, fun m _ => rfl⟩
      simp

/-- A non-empty payload needs at least one block. -/
theorem get_payload_count_pos (P : PageParams) (hA : 0 < P.align) (len : Nat) (h : 0 < len) :
    0 < get_payload_count P len := by
  unfold get_payload_count
  by_cases hm : len % P.align = 0
  · rw [if_neg (by simp [hm]), Nat.add_zero]
    rcases Nat.eq_zero_or_pos (len / P.align) with h0 | h1
    · exfalso
      have hdm := Nat.div_add_mod len P.align
      rw [h0, hm] at hdm
      simp at hdm
      omega
    · exact h1
  · rw [if_pos (by simp [hm])]
    exact Nat.le_add_left 1 _

/-- `SlotArray::free_payload` followed by `delete_slot` on a well-formed
page: the freed blocks are compacted away (payloads below are shifted up and
re-pointed), the remaining records keep their decoded values, and
well-formedness is preserved. -/
theorem delete_record_spec {K V : Type} (P : PageParams) (E : EncoderType K V) (hE : EncOK E)
    (hA : 0 < P.align) (p : Page) (hWF : PageWF P E p)
    (idx : Nat) (hidx : idx < p.slots.length) :
    PageWF P E (delete_slot (free_payload P p (get_slot p idx).ptr
      (rec_len P E p (get_slot p idx).ptr)) idx) ∧
    slot_recs P E (delete_slot (free_payload P p (get_slot p idx).ptr
      (rec_len P E p (get_slot p idx).ptr)) idx) = (slot_recs P E p).eraseIdx idx ∧
    (delete_slot (free_payload P p (get_slot p idx).ptr
      (rec_len P E p (get_slot p idx).ptr)) idx).heap.length = p.heap.length ∧
    (delete_slot (free_payload P p (get_slot p idx).ptr
      (rec_len P E p (get_slot p idx).ptr)) idx).slots.length = p.slots.length - 1 := by
  obtain ⟨hheap, hpble, hslots, hdisj⟩ := hWF
  have hfreedmem : get_slot p idx ∈ p.slots := by
    rw [get_slot, List.getD_eq_getElem _ _ hidx]
    exact List.getElem_mem _
  obtain ⟨hqlb, hqub⟩ := hslots _ hfreedmem
  have hcpos : 0 < rec_cnt P E p (get_slot p idx).ptr :=
    get_payload_count_pos P hA _ (hE.plen_pos _)
  have hcnt_pos : ∀ t ∈ p.slots, 0 < rec_cnt P E p t.ptr :=
    fun t _ => get_payload_count_pos P hA _ (hE.plen_pos _)
  -- the split of the slot vector at the freed slot
  have hsplit : p.slots = p.slots.take idx ++ get_slot p idx :: p.slots.drop (idx + 1) := by
    have h1 := List.take_append_drop idx p.slots
    have h2 : p.slots.drop idx = p.slots.get ⟨idx, hidx⟩ :: p.slots.drop (idx + 1) :=
      List.drop_eq_getElem_cons hidx
    have h3 : get_slot p idx = p.slots.get ⟨idx, hidx⟩ := by
      rw [get_slot, List.getD_eq_getElem _ _ hidx]
      rfl
    rw [h3, ← h2, h1]
  have hulen : (p.slots.take idx).length = idx := by
    rw [List.length_take]
    omega
  -- membership-level disjointness with the freed slot
  have hdisj2 := hdisj
  rw [hsplit, List.pairwise_append, List.pairwise_cons] at hdisj2
  obtain ⟨hPu, ⟨hfv, hPv⟩, hcross⟩ := hdisj2
  have hrelu : ∀ a ∈ p.slots.take idx,
      a.ptr + rec_cnt P E p a.ptr ≤ (get_slot p idx).ptr ∨
      (get_slot p idx).ptr + rec_cnt P E p (get_slot p idx).ptr ≤ a.ptr := by
    intro a ha
    exact hcross a ha _ (List.mem_cons_self _ _)
  have hrelv : ∀ b ∈ p.slots.drop (idx + 1),
      b.ptr + rec_cnt P E p b.ptr ≤ (get_slot p idx).ptr ∨
      (get_slot p idx).ptr + rec_cnt P E p (get_slot p idx).ptr ≤ b.ptr := by
    intro b hb
    exact (hfv b hb).symm
  -- arithmetic abbreviations
  have hqA : (get_slot p idx).ptr * P.align +
      rec_cnt P E p (get_slot p idx).ptr * P.align ≤ P.payloadCount * P.align := by
    rw [← Nat.add_mul]
    exact Nat.mul_le_mul_right _ hqub
  have hpbA : p.payloadBegin * P.align ≤ (get_slot p idx).ptr * P.align :=
    Nat.mul_le_mul_right _ hqlb
  have hlenc : rec_len P E p (get_slot p idx).ptr ≤
      rec_cnt P E p (get_slot p idx).ptr * P.align := le_get_payload_count_mul P hA _
  -- the shape of `free_payload`
  have hcm : (get_slot p idx).ptr - p.payloadBegin +
      rec_cnt P E p (get_slot p idx).ptr - 1 + 1 =
      (get_slot p idx).ptr - p.payloadBegin + rec_cnt P E p (get_slot p idx).ptr := by
    omega
  have hFP : free_payload P p (get_slot p idx).ptr (rec_len P E p (get_slot p idx).ptr) =
      (⟨(if 0 < (get_slot p idx).ptr - p.payloadBegin then
           p.slots.map (fun s =>
             if p.payloadBegin ≤ s.ptr ∧
                s.ptr ≤ (get_slot p idx).ptr + rec_cnt P E p (get_slot p idx).ptr - 1 then
               { s with ptr := s.ptr + rec_cnt P E p (get_slot p idx).ptr }
             else s)
         else p.slots),
        p.payloadBegin + rec_cnt P E p (get_slot p idx).ptr,
        write_range p.heap
          ((p.payloadBegin + rec_cnt P E p (get_slot p idx).ptr) * P.align)
          (read_range p.heap (p.payloadBegin * P.align)
            (((get_slot p idx).ptr - p.payloadBegin) * P.align))⟩ : Page) := by
    simp only [free_payload, shift_payloads]
    rw [show get_payload_count P (rec_len P E p (get_slot p idx).ptr) =
      rec_cnt P E p (get_slot p idx).ptr from rfl]
    rw [if_neg (by intro hcon; omega)]
    have hmin : min p.payloadBegin
        (p.payloadBegin + rec_cnt P E p (get_slot p idx).ptr) = p.payloadBegin :=
      min_eq_left (Nat.le_add_right _ _)
    have hmax : max p.payloadBegin
        (p.payloadBegin + rec_cnt P E p (get_slot p idx).ptr) =
        p.payloadBegin + rec_cnt P E p (get_slot p idx).ptr :=
      max_eq_right (Nat.le_add_right _ _)
    rw [hmin, hmax]
    rw [if_pos (le_refl _)]
    have hfix : ∀ s : Slot,
        (if p.payloadBegin ≤ s.ptr ∧ s.ptr ≤ p.payloadBegin +
            rec_cnt P E p (get_slot p idx).ptr + ((get_slot p idx).ptr - p.payloadBegin) - 1 then
          { s with ptr := s.ptr + (p.payloadBegin + rec_cnt P E p (get_slot p idx).ptr) -
            p.payloadBegin }
        else s) =
        (if p.payloadBegin ≤ s.ptr ∧
            s.ptr ≤ (get_slot p idx).ptr + rec_cnt P E p (get_slot p idx).ptr - 1 then
          { s with ptr := s.ptr + rec_cnt P E p (get_slot p idx).ptr }
        else s) := by
      intro s
      have harg : p.payloadBegin + rec_cnt P E p (get_slot p idx).ptr +
          ((get_slot p idx).ptr - p.payloadBegin) - 1 =
          (get_slot p idx).ptr + rec_cnt P E p (get_slot p idx).ptr - 1 := by
        omega
      have harg2 : s.ptr + (p.payloadBegin + rec_cnt P E p (get_slot p idx).ptr) -
          p.payloadBegin = s.ptr + rec_cnt P E p (get_slot p idx).ptr := by
        omega
      rw [harg, harg2]
    have hpbeq : p.payloadBegin + (p.payloadBegin + rec_cnt P E p (get_slot p idx).ptr) -
        p.payloadBegin = p.payloadBegin + rec_cnt P E p (get_slot p idx).ptr := by
      omega
    rw [hpbeq]
    dsimp only
    congr 1
    split
    · exact List.map_congr_left fun s _ => hfix s
    · rfl
  rw [hFP]
  set q := (get_slot p idx).ptr with hq
  set c := rec_cnt P E p q with hcdef
  set W := write_range p.heap ((p.payloadBegin + c) * P.align)
    (read_range p.heap (p.payloadBegin * P.align) ((q - p.payloadBegin) * P.align)) with hWdef
  set f := (fun s : Slot =>
    if p.payloadBegin ≤ s.ptr ∧ s.ptr ≤ q + c - 1 then
      { s with ptr := s.ptr + c }
    else s) with hfdef
  have hcq : c = rec_cnt P E p (get_slot p idx).ptr := hcdef
  -- byte-level arithmetic
  have hRlen : (read_range p.heap (p.payloadBegin * P.align)
      ((q - p.payloadBegin) * P.align)).length = (q - p.payloadBegin) * P.align := by
    rw [read_range, List.length_take, List.length_drop, hheap]
    have hsm := Nat.sub_mul q p.payloadBegin P.align
    omega
  have hwin2 : (p.payloadBegin + c) * P.align +
      (read_range p.heap (p.payloadBegin * P.align)
        ((q - p.payloadBegin) * P.align)).length ≤ p.heap.length := by
    rw [hRlen, hheap]
    have hsm := Nat.sub_mul q p.payloadBegin P.align
    have ham := Nat.add_mul p.payloadBegin c P.align
    omega
  have hWlen : W.length = p.heap.length := write_range_length _ _ _ hwin2
  have harith : (p.payloadBegin + c) * P.align + (q - p.payloadBegin) * P.align =
      (q + c) * P.align := by
    have hsm := Nat.sub_mul q p.payloadBegin P.align
    have ham := Nat.add_mul p.payloadBegin c P.align
    have ham2 := Nat.add_mul q c P.align
    omega
  have hdropdst : W.drop ((p.payloadBegin + c) * P.align) =
      read_range p.heap (p.payloadBegin * P.align) ((q - p.payloadBegin) * P.align) ++
        p.heap.drop ((q + c) * P.align) := by
    have h0 := drop_write_range p.heap ((p.payloadBegin + c) * P.align)
      (read_range p.heap (p.payloadBegin * P.align) ((q - p.payloadBegin) * P.align)) hwin2
    rw [hRlen, harith] at h0
    exact h0
  have hdropB : ∀ m, (q + c) * P.align ≤ m → W.drop m = p.heap.drop m := by
    intro m hm
    apply drop_write_range_of_le _ _ _ m hwin2
    rw [hRlen]
    omega
  have hApay : ∀ t : Slot, p.payloadBegin ≤ t.ptr → t.ptr + rec_cnt P E p t.ptr ≤ q →
      W.drop ((t.ptr + c) * P.align) =
      (p.heap.drop (t.ptr * P.align)).take ((q - t.ptr) * P.align) ++
        p.heap.drop ((q + c) * P.align) := by
    intro t htlb htub
    have hct : 0 < rec_cnt P E p t.ptr := get_payload_count_pos P hA _ (hE.plen_pos _)
    have hx : (t.ptr + c) * P.align =
        (p.payloadBegin + c) * P.align + (t.ptr - p.payloadBegin) * P.align := by
      have h1 := Nat.add_mul t.ptr c P.align
      have h2 := Nat.add_mul p.payloadBegin c P.align
      have h3 := Nat.sub_mul t.ptr p.payloadBegin P.align
      have h4 := Nat.mul_le_mul_right P.align htlb
      omega
    rw [hx, ← List.drop_drop, hdropdst]
    rw [List.drop_append_of_le_length (by
      rw [hRlen]
      exact Nat.mul_le_mul_right _ (by omega))]
    rw [read_range, List.drop_take, List.drop_drop]
    have h5 : p.payloadBegin * P.align + (t.ptr - p.payloadBegin) * P.align =
        t.ptr * P.align := by
      have h3 := Nat.sub_mul t.ptr p.payloadBegin P.align
      have h4 := Nat.mul_le_mul_right P.align htlb
      omega
    have h6 : (q - p.payloadBegin) * P.align - (t.ptr - p.payloadBegin) * P.align =
        (q - t.ptr) * P.align := by
      have h3 := Nat.sub_mul t.ptr p.payloadBegin P.align
      have h7 := Nat.sub_mul q p.payloadBegin P.align
      have h8 := Nat.sub_mul q t.ptr P.align
      have h4 := Nat.mul_le_mul_right P.align htlb
      have h9 := Nat.mul_le_mul_right P.align hqlb
      omega
    rw [h5, h6]
  -- record preservation, case B (payload above the freed extent)
  have hrlB : ∀ t : Slot, q + c ≤ t.ptr →
      E.payload_length (W.drop (t.ptr * P.align)) =
        E.payload_length (p.heap.drop (t.ptr * P.align)) ∧
      ∀ pm, E.decode (W.drop (t.ptr * P.align)) pm =
        E.decode (p.heap.drop (t.ptr * P.align)) pm := by
    intro t ht
    have hd := hdropB (t.ptr * P.align) (Nat.mul_le_mul_right _ ht)
    rw [hd]
    exact ⟨rfl, fun _ => rfl⟩
  -- record preservation, case A (payload below the freed extent, shifted up)
  have hrlA : ∀ t : Slot, p.payloadBegin ≤ t.ptr → t.ptr + rec_cnt P E p t.ptr ≤ q →
      t.ptr + rec_cnt P E p t.ptr ≤ P.payloadCount →
      E.payload_length (W.drop ((t.ptr + c) * P.align)) =
        E.payload_length (p.heap.drop (t.ptr * P.align)) ∧
      ∀ pm, E.decode (W.drop ((t.ptr + c) * P.align)) pm =
        E.decode (p.heap.drop (t.ptr * P.align)) pm := by
    intro t htlb htub htPC
    have hm1 : E.payload_length (p.heap.drop (t.ptr * P.align)) ≤ (q - t.ptr) * P.align := by
      have h1 : rec_len P E p t.ptr ≤ rec_cnt P E p t.ptr * P.align :=
        le_get_payload_count_mul P hA _
      have h2 : rec_cnt P E p t.ptr * P.align ≤ (q - t.ptr) * P.align :=
        Nat.mul_le_mul_right _ (by omega)
      exact le_trans h1 h2
    have hm2 : (q - t.ptr) * P.align ≤ (p.heap.drop (t.ptr * P.align)).length := by
      rw [List.length_drop, hheap]
      have h7 := Nat.sub_mul q t.ptr P.align
      have h9 := Nat.mul_le_mul_right P.align hqub
      have h10 := Nat.add_mul q c P.align
      have h11 := Nat.mul_le_mul_right P.align htPC
      have h12 := Nat.add_mul t.ptr (rec_cnt P E p t.ptr) P.align
      omega
    have htk : (p.heap.drop (t.ptr * P.align)).take ((q - t.ptr) * P.align) =
        (W.drop ((t.ptr + c) * P.align)).take ((q - t.ptr) * P.align) := by
      rw [hApay t htlb htub]
      exact (List.take_left' (by rw [List.length_take]; omega)).symm
    exact ⟨hE.plen_ext _ _ _ hm1 htk, fun pm => hE.dec_ext _ _ pm _ hm1 htk⟩
  -- the final slot vector
  have hslotsF : (if 0 < q - p.payloadBegin then p.slots.map f else p.slots).eraseIdx idx =
      (p.slots.take idx).map f ++ (p.slots.drop (idx + 1)).map f := by
    split
    · rename_i hcount
      conv_lhs => rw [hsplit]
      rw [List.map_append, List.map_cons]
      have hlen' : ((p.slots.take idx).map f).length = idx := by
        rw [List.length_map, hulen]
      have he := eraseIdx_append_cons ((p.slots.take idx).map f)
        ((p.slots.drop (idx + 1)).map f) (f (get_slot p idx))
      rw [hlen'] at he
      exact he
    · rename_i hcount
      have hq_pb : q = p.payloadBegin := by omega
      conv_lhs => rw [hsplit]
      have he := eraseIdx_append_cons (p.slots.take idx) (p.slots.drop (idx + 1))
        (get_slot p idx)
      rw [hulen] at he
      rw [he]
      have hfid : ∀ t : Slot, p.payloadBegin ≤ t.ptr →
          (t.ptr + rec_cnt P E p t.ptr ≤ (get_slot p idx).ptr ∨
            (get_slot p idx).ptr + rec_cnt P E p (get_slot p idx).ptr ≤ t.ptr) → f t = t := by
        intro t htlb hrel
        have hct : 0 < rec_cnt P E p t.ptr := get_payload_count_pos P hA _ (hE.plen_pos _)
        rw [hfdef]
        dsimp only
        rw [if_neg]
        intro hcon
        rcases hrel with hrel | hrel <;> omega
      rw [List.map_congr_left (fun t ht => hfid t
          (hslots t (List.take_subset _ _ ht)).1 (hrelu t ht)),
        List.map_congr_left (fun t ht => hfid t
          (hslots t (List.drop_subset _ _ ht)).1 (hrelv t ht))]
      simp
  -- the final page
  set FW := (⟨(p.slots.take idx).map f ++ (p.slots.drop (idx + 1)).map f,
    p.payloadBegin + c, W⟩ : Page) with hFWdef
  have hdel : delete_slot (⟨(if 0 < q - p.payloadBegin then p.slots.map f else p.slots),
      p.payloadBegin + c, W⟩ : Page) idx = FW := by
    unfold delete_slot
    dsimp only
    rw [hslotsF]
  rw [hdel]
  -- per-slot shape of the fixup
  have hfA : ∀ t : Slot, p.payloadBegin ≤ t.ptr →
      t.ptr + rec_cnt P E p t.ptr ≤ (get_slot p idx).ptr →
      f t = ⟨t.key, t.ptr + c, t.ghost⟩ := by
    intro t htlb htub
    have hct : 0 < rec_cnt P E p t.ptr := get_payload_count_pos P hA _ (hE.plen_pos _)
    rw [hfdef]
    dsimp only
    rw [if_pos ⟨htlb, by omega⟩]
  have hfB : ∀ t : Slot,
      (get_slot p idx).ptr + rec_cnt P E p (get_slot p idx).ptr ≤ t.ptr → f t = t := by
    intro t hge
    rw [hfdef]
    dsimp only
    rw [if_neg]
    intro hcon
    omega
  -- the per-slot preservation bundle
  have hmain : ∀ t : Slot, t ∈ p.slots →
      (t.ptr + rec_cnt P E p t.ptr ≤ (get_slot p idx).ptr ∨
        (get_slot p idx).ptr + rec_cnt P E p (get_slot p idx).ptr ≤ t.ptr) →
      rec_len P E FW (f t).ptr = rec_len P E p t.ptr ∧
      E.decode (FW.heap.drop ((f t).ptr * P.align)) (f t).key =
        E.decode (p.heap.drop (t.ptr * P.align)) t.key ∧
      p.payloadBegin + c ≤ (f t).ptr ∧
      (f t).ptr + rec_cnt P E p t.ptr ≤ P.payloadCount := by
    intro t ht hrel
    obtain ⟨htlb, htub⟩ := hslots t ht
    rcases hrel with hrel | hrel
    · rw [hfA t htlb hrel]
      dsimp only
      obtain ⟨hp1, hp2⟩ := hrlA t htlb hrel htub
      exact ⟨hp1, hp2 _, by omega, by omega⟩
    · rw [hfB t hrel]
      obtain ⟨hp1, hp2⟩ := hrlB t hrel
      exact ⟨hp1, hp2 _, by omega, by omega⟩
  have hfwcnt : ∀ t : Slot, t ∈ p.slots →
      (t.ptr + rec_cnt P E p t.ptr ≤ (get_slot p idx).ptr ∨
        (get_slot p idx).ptr + rec_cnt P E p (get_slot p idx).ptr ≤ t.ptr) →
      rec_cnt P E FW (f t).ptr = rec_cnt P E p t.ptr := by
    intro t ht hrel
    unfold rec_cnt
    rw [(hmain t ht hrel).1]
  have hptrA : ∀ t : Slot, p.payloadBegin ≤ t.ptr →
      t.ptr + rec_cnt P E p t.ptr ≤ (get_slot p idx).ptr → (f t).ptr = t.ptr + c := by
    intro t htlb htub
    rw [hfA t htlb htub]
  have hptrB : ∀ t : Slot,
      (get_slot p idx).ptr + rec_cnt P E p (get_slot p idx).ptr ≤ t.ptr →
      (f t).ptr = t.ptr := by
    intro t hge
    rw [hfB t hge]
  -- pairwise disjointness is preserved by the shift
  have hpair : ∀ a b : Slot, a ∈ p.slots → b ∈ p.slots →
      (a.ptr + rec_cnt P E p a.ptr ≤ (get_slot p idx).ptr ∨
        (get_slot p idx).ptr + rec_cnt P E p (get_slot p idx).ptr ≤ a.ptr) →
      (b.ptr + rec_cnt P E p b.ptr ≤ (get_slot p idx).ptr ∨
        (get_slot p idx).ptr + rec_cnt P E p (get_slot p idx).ptr ≤ b.ptr) →
      (a.ptr + rec_cnt P E p a.ptr ≤ b.ptr ∨ b.ptr + rec_cnt P E p b.ptr ≤ a.ptr) →
      ((f a).ptr + rec_cnt P E FW (f a).ptr ≤ (f b).ptr ∨
        (f b).ptr + rec_cnt P E FW (f b).ptr ≤ (f a).ptr) := by
    intro a b ha hb hda hdb hrel
    obtain ⟨halb, haub⟩ := hslots a ha
    obtain ⟨hblb, hbub⟩ := hslots b hb
    rw [hfwcnt a ha hda, hfwcnt b hb hdb]
    rcases hda with hda | hda <;> rcases hdb with hdb | hdb
    · rw [hptrA a halb hda, hptrA b hblb hdb]
      rcases hrel with hrel | hrel
      · exact Or.inl (by omega)
      · exact Or.inr (by omega)
    · rw [hptrA a halb hda, hptrB b hdb]
      exact Or.inl (by omega)
    · rw [hptrB a hda, hptrA b hblb hdb]
      exact Or.inr (by omega)
    · rw [hptrB a hda, hptrB b hdb]
      exact hrel
  refine ⟨⟨by rw [show FW.heap.length = W.length from rfl, hWlen, hheap], ?_, ?_, ?_⟩, ?_, ?_, ?_⟩
  · show p.payloadBegin + c ≤ P.payloadCount
    omega
  · intro s' hs'
    rw [show FW.slots = (p.slots.take idx).map f ++ (p.slots.drop (idx + 1)).map f from rfl,
      List.mem_append, List.mem_map, List.mem_map] at hs'
    rcases hs' with ⟨t, ht, rfl⟩ | ⟨t, ht, rfl⟩
    · have htm : t ∈ p.slots := List.take_subset _ _ ht
      have hd := hrelu t ht
      refine ⟨(hmain t htm hd).2.2.1, ?_⟩
      rw [hfwcnt t htm hd]
      exact (hmain t htm hd).2.2.2
    · have htm : t ∈ p.slots := List.drop_subset _ _ ht
      have hd := hrelv t ht
      refine ⟨(hmain t htm hd).2.2.1, ?_⟩
      rw [hfwcnt t htm hd]
      exact (hmain t htm hd).2.2.2
  · show List.Pairwise _ ((p.slots.take idx).map f ++ (p.slots.drop (idx + 1)).map f)
    rw [List.pairwise_append]
    refine ⟨?_, ?_, ?_⟩
    · rw [List.pairwise_map]
      refine hPu.imp_of_mem ?_
      intro a b ha hb hab
      exact hpair a b (List.take_subset _ _ ha) (List.take_subset _ _ hb)
        (hrelu a ha) (hrelu b hb) hab
    · rw [List.pairwise_map]
      refine hPv.imp_of_mem ?_
      intro a b ha hb hab
      exact hpair a b (List.drop_subset _ _ ha) (List.drop_subset _ _ hb)
        (hrelv a ha) (hrelv b hb) hab
    · intro a' ha' b' hb'
      rw [List.mem_map] at ha' hb'
      obtain ⟨a, ha, rfl⟩ := ha'
      obtain ⟨b, hb, rfl⟩ := hb'
      exact hpair a b (List.take_subset _ _ ha) (List.drop_subset _ _ hb)
        (hrelu a ha) (hrelv b hb)
        (hcross a ha b (List.mem_cons_of_mem _ hb))
  · -- the record list
    have hrhs : (slot_recs P E p).eraseIdx idx =
        (p.slots.take idx).map
          (fun s => E.decode (p.heap.drop (s.ptr * P.align)) s.key) ++
        (p.slots.drop (idx + 1)).map
          (fun s => E.decode (p.heap.drop (s.ptr * P.align)) s.key) := by
      unfold slot_recs
      conv_lhs => rw [hsplit]
      rw [List.map_append, List.map_cons]
      have he := eraseIdx_append_cons
        ((p.slots.take idx).map (fun s => E.decode (p.heap.drop (s.ptr * P.align)) s.key))
        ((p.slots.drop (idx + 1)).map (fun s => E.decode (p.heap.drop (s.ptr * P.align)) s.key))
        (E.decode (p.heap.drop ((get_slot p idx).ptr * P.align)) (get_slot p idx).key)
      rw [List.length_map, hulen] at he
      exact he
    rw [hrhs]
    show (slot_recs P E FW) = _
    unfold slot_recs
    rw [show FW.slots = (p.slots.take idx).map f ++ (p.slots.drop (idx + 1)).map f from rfl,
      List.map_append, List.map_map, List.map_map]
    congr 1
    · apply List.map_congr_left
      intro t ht
      exact (hmain t (List.take_subset _ _ ht) (hrelu t ht)).2.1
    · apply List.map_congr_left
      intro t ht
      exact (hmain t (List.drop_subset _ _ ht) (hrelv t ht)).2.1
  · show W.length = p.heap.length
    exact hWlen
  · show ((p.slots.take idx).map f ++ (p.slots.drop (idx + 1)).map f).length =
      p.slots.length - 1
    rw [List.length_append, List.length_map, List.length_map, hulen, List.length_drop]
    omega

/-- The source deletion loop of `move_records` removes exactly the records
`[ss, i)`, keeping the others (with their decoded values) and
well-formedness. -/
theorem mr_delete_src_spec {K V : Type} (P : PageParams) (E : EncoderType K V) (hE : EncOK E)
    (hA : 0 < P.align) :
    ∀ fuel i ss p, PageWF P E p → ss ≤ i → i ≤ p.slots.length → i - ss < fuel →
      PageWF P E (mr_delete_src P E fuel p i ss) ∧
      slot_recs P E (mr_delete_src P E fuel p i ss) =
        (slot_recs P E p).take ss ++ (slot_recs P E p).drop i ∧
      (mr_delete_src P E fuel p i ss).slots.length = p.slots.length - (i - ss) ∧
      (mr_delete_src P E fuel p i ss).heap.length = p.heap.length := by
  intro fuel
  induction fuel with
  | zero =>
    intro i ss p _ _ _ hfuel
    exact absurd hfuel (by omega)
  | succ fuel ih =>
    intro i ss p hWF hss hi hfuel
    simp only [mr_delete_src]
    by_cases hlt : ss < i
    · rw [if_pos hlt]
      have hidx : i - 1 < p.slots.length := by omega
      rw [show E.payload_length (payload_bytes P p (get_slot p (i - 1)).ptr) =
        rec_len P E p (get_slot p (i - 1)).ptr from rfl]
      obtain ⟨hWF1, hrecs1, hheap1, hslen1⟩ := delete_record_spec P E hE hA p hWF (i - 1) hidx
      obtain ⟨hWF2, hrecs2, hslen2, hheap2⟩ :=
        ih (i - 1) ss _ hWF1 (by omega) (by rw [hslen1]; omega) (by omega)
      have hrlen : (slot_recs P E p).length = p.slots.length := slot_recs_length P E p
      have htklen : ((slot_recs P E p).take (i - 1)).length = i - 1 := by
        rw [List.length_take]
        omega
      have herase : (slot_recs P E p).eraseIdx (i - 1) =
          (slot_recs P E p).take (i - 1) ++ (slot_recs P E p).drop i := by
        rw [List.eraseIdx_eq_take_drop_succ]
        rw [show i - 1 + 1 = i from by omega]
      refine ⟨hWF2, ?_, by omega, by rw [hheap2, hheap1]⟩
      rw [hrecs2, hrecs1, herase]
      have htk : (((slot_recs P E p).take (i - 1) ++ (slot_recs P E p).drop i)).take ss =
          (slot_recs P E p).take ss := by
        rw [List.take_append_eq_append_take]
        rw [htklen, show ss - (i - 1) = 0 from by omega, List.take_zero, List.append_nil,
          List.take_take, min_eq_left (by omega)]
      have hdr : (((slot_recs P E p).take (i - 1) ++ (slot_recs P E p).drop i)).drop (i - 1) =
          (slot_recs P E p).drop i := List.drop_left' htklen
      rw [htk, hdr]
    · rw [if_neg hlt]
      have hieq : i = ss := by omega
      subst hieq
      exact ⟨hWF, by rw [List.take_append_drop], by omega, rfl⟩

/-- Freeing a payload that sits exactly at `payload_begin` only raises
`payload_begin`: nothing is shifted. -/
theorem free_payload_at_pb (P : PageParams) (p : Page) (len : Nat) :
    free_payload P p p.payloadBegin len =
      { p with payloadBegin := p.payloadBegin + get_payload_count P len } := by
  simp only [free_payload, shift_payloads]
  rw [Nat.sub_self]
  rw [if_neg (by intro hcon; omega)]
  have hmin : min p.payloadBegin (p.payloadBegin + get_payload_count P len) =
      p.payloadBegin := min_eq_left (Nat.le_add_right _ _)
  rw [hmin]
  rw [if_pos (le_refl _)]
  rw [Nat.zero_mul, show read_range p.heap (p.payloadBegin * P.align) 0 = [] from rfl,
    write_range_nil]
  rw [show p.payloadBegin + (p.payloadBegin + get_payload_count P len) - p.payloadBegin =
    p.payloadBegin + get_payload_count P len from by omega]
  rfl

/-- The rollback loop does nothing when it starts at its stop index. -/
theorem mr_rollback_same {K V : Type} (P : PageParams) (E : EncoderType K V) :
    ∀ fuel d j, mr_rollback P E fuel d j j = d := by
  intro fuel d j
  cases fuel with
  | zero => rfl
  | succ fuel =>
    rw [mr_rollback]
    rw [if_neg (lt_irrefl j)]

/-- The element right after a prefix, by `getD`. -/
theorem getD_append_length {α : Type} (A B : List α) (nu dflt : α) :
    (A ++ nu :: B).getD A.length dflt = nu := by
  induction A with
  | nil => rfl
  | cons a as ih => simpa using ih

/-- The rollback loop peels off its final iteration (the one at the stop
index). -/
theorem mr_rollback_split {K V : Type} (P : PageParams) (E : EncoderType K V) :
    ∀ fuel d jv ds, ds < jv → jv - ds ≤ fuel →
      mr_rollback P E fuel d jv ds =
        delete_slot (free_payload P (mr_rollback P E fuel d jv (ds + 1))
          (get_slot (mr_rollback P E fuel d jv (ds + 1)) ds).ptr
          (E.payload_length (payload_bytes P (mr_rollback P E fuel d jv (ds + 1))
            (get_slot (mr_rollback P E fuel d jv (ds + 1)) ds).ptr))) ds := by
  intro fuel
  induction fuel with
  | zero =>
    intro d jv ds h1 h2
    omega
  | succ fuel ih =>
    intro d jv ds h1 h2
    by_cases hend : jv = ds + 1
    · subst hend
      conv_lhs => rw [mr_rollback]
      rw [if_pos h1]
      rw [show ds + 1 - 1 = ds from by omega]
      rw [mr_rollback_same]
      rw [mr_rollback_same]
    · have h3 : ds + 1 < jv := by omega
      conv_lhs => rw [mr_rollback]
      rw [if_pos h1]
      rw [ih _ _ _ (by omega) (by omega)]
      have hR : mr_rollback P E (fuel + 1) d jv (ds + 1) =
          mr_rollback P E fuel
            (delete_slot (free_payload P d (get_slot d (jv - 1)).ptr
              (E.payload_length (payload_bytes P d (get_slot d (jv - 1)).ptr))) (jv - 1))
            (jv - 1) (ds + 1) := by
        conv_lhs => rw [mr_rollback]
        rw [if_pos h3]
      rw [hR]

/-- The copy loop of `move_records`, failure case: running the rollback loop
on the partial result restores the destination page observationally, and the
final loop variable `j'` stays at or above the entry `j`. -/
theorem mr_copy_fail_rollback {K V : Type} (P : PageParams) (E : EncoderType K V)
    (hE : EncOK E) (hA : 0 < P.align) (src : Page) (hS : PageWF P E src) (last : Nat)
    (hlast : last < src.slots.length) :
    ∀ fuel i j d d' i' j', mr_copy P E fuel d src i j last = (d', i', j', false) →
      PageWF P E d → j ≤ d.slots.length →
      j ≤ j' ∧ ∀ fuel2, j' - j < fuel2 → PageEquiv P (mr_rollback P E fuel2 d' j' j) d := by
  intro fuel
  induction fuel with
  | zero =>
    intro i j d d' i' j' heq hD hj
    simp only [mr_copy] at heq
    obtain ⟨h1, h2, h3, -⟩ : d = d' ∧ i = i' ∧ j = j' ∧ True := by
      injection heq with e1 e2
      injection e2 with e2 e3
      injection e3 with e3 _
      exact ⟨e1, e2, e3, trivial⟩
    subst h1 h2 h3
    refine ⟨le_refl _, fun fuel2 _ => ?_⟩
    rw [mr_rollback_same]
    exact ⟨rfl, rfl, rfl, rfl⟩
  | succ fuel ih =>
    intro i j d d' i' j' heq hD hj
    simp only [mr_copy] at heq
    by_cases hi : i ≤ last
    · rw [if_pos hi] at heq
      rw [show E.payload_length (payload_bytes P src (get_slot src i).ptr) =
        rec_len P E src (get_slot src i).ptr from rfl] at heq
      split at heq
      · -- insert_slot failed: the destination was not touched
        rename_i d1 hI
        have hd1 : d1 = d := by
          unfold insert_slot at hI
          split at hI
          · injection hI with h1a _
            exact h1a.symm
          · injection hI with _ hbad
            exact Bool.noConfusion hbad
        rw [hd1] at heq
        obtain ⟨h1, h2, h3, -⟩ : d = d' ∧ i = i' ∧ j = j' ∧ True := by
          injection heq with e1 e2
          injection e2 with e2 e3
          injection e3 with e3 _
          exact ⟨e1, e2, e3, trivial⟩
        subst h1 h2 h3
        refine ⟨le_refl _, fun fuel2 _ => ?_⟩
        rw [mr_rollback_same]
        exact ⟨rfl, rfl, rfl, rfl⟩
      · rename_i d1 hI
        split at heq
        · -- allocation failed: the inserted slot is deleted again
          rename_i d2 hAl
          have hd1 : d1 = { d with slots := d.slots.insertIdx j (d.slots.getD j Slot.dflt) } := by
            unfold insert_slot at hI
            split at hI
            · injection hI with _ hbad
              exact Bool.noConfusion hbad
            · injection hI with h1a _
              exact h1a.symm
          have hd2 : d2 = d1 := by
            simp only [allocate_payload] at hAl
            split at hAl
            · injection hAl with h2a _
              exact h2a.symm
            · injection hAl with _ hbad
              exact Option.noConfusion hbad
          subst hd2 hd1
          obtain ⟨h1, h2, h3, -⟩ :
              delete_slot { d with slots := d.slots.insertIdx j (d.slots.getD j Slot.dflt) } j
                = d' ∧ i = i' ∧ j = j' ∧ True := by
            injection heq with e1 e2
            injection e2 with e2 e3
            injection e3 with e3 _
            exact ⟨e1, e2, e3, trivial⟩
          have hrestore : delete_slot
              { d with slots := d.slots.insertIdx j (d.slots.getD j Slot.dflt) } j = d := by
            unfold delete_slot
            dsimp only
            rw [List.eraseIdx_insertIdx]
          rw [hrestore] at h1
          subst h1 h2 h3
          refine ⟨le_refl _, fun fuel2 _ => ?_⟩
          rw [mr_rollback_same]
          exact ⟨rfl, rfl, rfl, rfl⟩
        · -- one successful copy step, then failure deeper in the loop
          rename_i d2 pd hAl
          have hisrc : i < src.slots.length := by omega
          obtain ⟨hpdc, hslots4, hpb4, hlen4, hdrop4, hrl4, hWF4, hrecs4⟩ :=
            copy_step P E hE hA src d hS hD i j hisrc hj d1 d2 pd hI hAl _ rfl
          have hjlen : (d.slots.take j).length = j := by
            rw [List.length_take]
            omega
          have hlen_slots : (write_payload P (set_slot d2 j
              ⟨(get_slot src i).key, pd, (get_slot src i).ghost⟩) pd
              ((payload_bytes P src (get_slot src i).ptr).take
                (rec_len P E src (get_slot src i).ptr))).slots.length =
              d.slots.length + 1 := by
            rw [hslots4, List.length_append, List.length_cons, List.length_drop, hjlen]
            omega
          obtain ⟨hjle, hroll⟩ := ih (i + 1) (j + 1) _ d' i' j' heq hWF4 (by omega)
          refine ⟨by omega, fun fuel2 hf2 => ?_⟩
          rw [mr_rollback_split P E fuel2 d' j' j (by omega) (by omega)]
          obtain ⟨heqs, heqpb, heqlen, heqdrop⟩ := hroll fuel2 (by omega)
          -- the restored-to-(j+1) page
          have hRslots : (mr_rollback P E fuel2 d' j' (j + 1)).slots =
              d.slots.take j ++
                ⟨(get_slot src i).key, pd, (get_slot src i).ghost⟩ :: d.slots.drop j := by
            rw [heqs, hslots4]
          have hRpb : (mr_rollback P E fuel2 d' j' (j + 1)).payloadBegin = pd := by
            rw [heqpb, hpb4]
          have hgsR : get_slot (mr_rollback P E fuel2 d' j' (j + 1)) j =
              ⟨(get_slot src i).key, pd, (get_slot src i).ghost⟩ := by
            have hg := getD_append_length (d.slots.take j) (d.slots.drop j)
              (⟨(get_slot src i).key, pd, (get_slot src i).ghost⟩ : Slot) Slot.dflt
            rw [hjlen] at hg
            rw [get_slot, hRslots]
            exact hg
          have hRdrop : (mr_rollback P E fuel2 d' j' (j + 1)).heap.drop (pd * P.align) =
              (write_payload P (set_slot d2 j
                ⟨(get_slot src i).key, pd, (get_slot src i).ghost⟩) pd
                ((payload_bytes P src (get_slot src i).ptr).take
                  (rec_len P E src (get_slot src i).ptr))).heap.drop (pd * P.align) := by
            have h0 := heqdrop
            rw [heqpb, hpb4] at h0
            exact h0
          have hplenR : E.payload_length
              ((mr_rollback P E fuel2 d' j' (j + 1)).heap.drop (pd * P.align)) =
              rec_len P E src (get_slot src i).ptr := by
            rw [hRdrop]
            exact hrl4
          rw [hgsR]
          dsimp only
          show PageEquiv P (delete_slot (free_payload P _ pd
            (E.payload_length (payload_bytes P _ pd))) j) d
          rw [show payload_bytes P (mr_rollback P E fuel2 d' j' (j + 1)) pd =
            (mr_rollback P E fuel2 d' j' (j + 1)).heap.drop (pd * P.align) from rfl]
          rw [hplenR]
          rw [show pd = (mr_rollback P E fuel2 d' j' (j + 1)).payloadBegin from hRpb.symm]
          rw [free_payload_at_pb]
          refine ⟨?_, ?_, ?_, ?_⟩
          · show ((mr_rollback P E fuel2 d' j' (j + 1)).slots.eraseIdx j) = d.slots
            have he := eraseIdx_append_cons (d.slots.take j) (d.slots.drop j)
              (⟨(get_slot src i).key, pd, (get_slot src i).ghost⟩ : Slot)
            rw [hjlen] at he
            rw [hRslots, he, List.take_append_drop]
          · show (mr_rollback P E fuel2 d' j' (j + 1)).payloadBegin +
              get_payload_count P (rec_len P E src (get_slot src i).ptr) = d.payloadBegin
            rw [hRpb]
            exact hpdc
          · show (mr_rollback P E fuel2 d' j' (j + 1)).heap.length = d.heap.length
            rw [heqlen, hlen4]
          · show (mr_rollback P E fuel2 d' j' (j + 1)).heap.drop
              (((mr_rollback P E fuel2 d' j' (j + 1)).payloadBegin +
                get_payload_count P (rec_len P E src (get_slot src i).ptr)) * P.align) =
              d.heap.drop (d.payloadBegin * P.align)
            rw [hRpb, show pd + get_payload_count P (rec_len P E src (get_slot src i).ptr) =
              d.payloadBegin from hpdc]
            have hstep : (mr_rollback P E fuel2 d' j' (j + 1)).heap.drop
                (d.payloadBegin * P.align) =
                (write_payload P (set_slot d2 j
                  ⟨(get_slot src i).key, pd, (get_slot src i).ghost⟩) pd
                  ((payload_bytes P src (get_slot src i).ptr).take
                    (rec_len P E src (get_slot src i).ptr))).heap.drop
                  (d.payloadBegin * P.align) := by
              have hmono : pd * P.align ≤ d.payloadBegin * P.align :=
                Nat.mul_le_mul_right _ (by omega)
              have h1 := congrArg (List.drop (d.payloadBegin * P.align - pd * P.align)) hRdrop
              rw [List.drop_drop, List.drop_drop] at h1
              rw [show pd * P.align + (d.payloadBegin * P.align - pd * P.align) =
                d.payloadBegin * P.align from by omega] at h1
              exact h1
            rw [hstep]
            exact hdrop4 _ (le_refl _)
    · rw [if_neg hi] at heq
      simp at heq

/-- C5: atomicity of `RecordMover::move_records` on well-formed pages with a
sane encoder and a valid non-empty slot range.  On success the `n` source
records appear in the destination at `ds` and disappear from the source, both
pages stay well formed, and — given that both inputs were sorted and the
moved key range does not interleave with the destination's existing keys
(`hx1`/`hx2`) — both record lists are sorted.  On failure the source page is
returned untouched and the destination is observationally unchanged: same
slots, same `payload_begin`, same heap size and same payload-area bytes (the
C++ code likewise leaves only dirty bytes in the free area). -/
theorem C5_move_records_atomic {K V : Type} (P : PageParams) (E : EncoderType K V)
    (lt : K → K → Bool) (hE : EncOK E) (hA : 0 < P.align)
    (dest src : Page) (ds ss n : Nat)
    (hD : PageWF P E dest) (hS : PageWF P E src)
    (hds : ds ≤ dest.slots.length) (hss : ss + n ≤ src.slots.length) (hn : 0 < n)
    (hsortD : List.Pairwise (fun a b => lt a.1 b.1 = true) (slot_recs P E dest))
    (hsortS : List.Pairwise (fun a b => lt a.1 b.1 = true) (slot_recs P E src))
    (hx1 : ∀ a ∈ (slot_recs P E dest).take ds,
      ∀ b ∈ ((slot_recs P E src).drop ss).take n, lt a.1 b.1 = true)
    (hx2 : ∀ b ∈ ((slot_recs P E src).drop ss).take n,
      ∀ c ∈ (slot_recs P E dest).drop ds, lt b.1 c.1 = true) :
    ((move_records P E dest ds src ss n).2.2 = true →
      slot_recs P E (move_records P E dest ds src ss n).1 =
        (slot_recs P E dest).take ds ++
          (((slot_recs P E src).drop ss).take n ++ (slot_recs P E dest).drop ds) ∧
      slot_recs P E (move_records P E dest ds src ss n).2.1 =
        (slot_recs P E src).take ss ++ (slot_recs P E src).drop (ss + n) ∧
      PageWF P E (move_records P E dest ds src ss n).1 ∧
      PageWF P E (move_records P E dest ds src ss n).2.1 ∧
      List.Pairwise (fun a b => lt a.1 b.1 = true)
        (slot_recs P E (move_records P E dest ds src ss n).1) ∧
      List.Pairwise (fun a b => lt a.1 b.1 = true)
        (slot_recs P E (move_records P E dest ds src ss n).2.1)) ∧
    ((move_records P E dest ds src ss n).2.2 = false →
      (move_records P E dest ds src ss n).2.1 = src ∧
      PageEquiv P (move_records P E dest ds src ss n).1 dest) := by
  have hlast : ss + n - 1 < src.slots.length := by omega
  simp only [move_records]
  cases hcopy : mr_copy P E (n + 1) dest src ss ds (ss + n - 1) with
  | mk d' rest =>
    obtain ⟨i', j', success⟩ := rest
    cases success with
    | true =>
      dsimp only
      rw [if_pos rfl]
      obtain ⟨hi', hj', hWF', hlen', hrecs', hpb', hhl', hdrop'⟩ :=
        mr_copy_spec P E hE hA src hS (ss + n - 1) hlast (n + 1) ss ds dest d' i' j'
          hcopy hD hds (by omega)
      have hn1 : ss + n - 1 + 1 - ss = n := by omega
      rw [hn1] at hrecs'
      subst hi'
      obtain ⟨hWFs, hrecss, hslens, hheaps⟩ :=
        mr_delete_src_spec P E hE hA (ss + n + 1) (ss + n) ss src hS
          (by omega) (by omega) (by omega)
      dsimp only
      rw [show ss + n - 1 + 1 = ss + n from by omega]
      refine ⟨fun _ => ⟨hrecs', hrecss, hWF', hWFs, ?_, ?_⟩, fun hcon => by simp at hcon⟩
      · -- the destination stays sorted
        rw [hrecs']
        rw [List.pairwise_append]
        refine ⟨hsortD.sublist (List.take_sublist _ _), ?_, ?_⟩
        · rw [List.pairwise_append]
          refine ⟨(hsortS.sublist (List.drop_sublist _ _)).sublist (List.take_sublist _ _),
            hsortD.sublist (List.drop_sublist _ _), hx2⟩
        · intro a ha b hb
          rw [List.mem_append] at hb
          rcases hb with hb | hb
          · exact hx1 a ha b hb
          · have hsplitD := (List.take_append_drop ds (slot_recs P E dest)).symm
            rw [hsplitD, List.pairwise_append] at hsortD
            exact hsortD.2.2 a ha b hb
      · -- the source stays sorted
        rw [hrecss]
        have hsub : List.Sublist
            ((slot_recs P E src).take ss ++ (slot_recs P E src).drop (ss + n))
            (slot_recs P E src) := by
          conv_rhs => rw [← List.take_append_drop ss (slot_recs P E src)]
          refine List.Sublist.append_left ?_ _
          have hdd : (slot_recs P E src).drop (ss + n) =
              ((slot_recs P E src).drop ss).drop n := by
            rw [List.drop_drop]
          rw [hdd]
          exact List.drop_sublist _ _
        exact hsortS.sublist hsub
    | false =>
      dsimp only
      rw [if_neg (by simp)]
      obtain ⟨hjle, hroll⟩ :=
        mr_copy_fail_rollback P E hE hA src hS (ss + n - 1) hlast (n + 1) ss ds dest d'
          i' j' hcopy hD hds
      refine ⟨fun hcon => by simp at hcon, fun _ => ⟨rfl, ?_⟩⟩
      exact hroll (j' + 1) (by omega)

/-- Witness for C5: moving the one record `[5,5,9] ↦ [8]` from the two-record
page onto the one-record page at the concrete geometry. -/
theorem C5_move_records_atomic_witness :
    ((move_records P64 E_leaf pageA 1 pageAB 1 1).2.2 = true →
      slot_recs P64 E_leaf (move_records P64 E_leaf pageA 1 pageAB 1 1).1 =
        (slot_recs P64 E_leaf pageA).take 1 ++
          (((slot_recs P64 E_leaf pageAB).drop 1).take 1 ++
            (slot_recs P64 E_leaf pageA).drop 1) ∧
      slot_recs P64 E_leaf (move_records P64 E_leaf pageA 1 pageAB 1 1).2.1 =
        (slot_recs P64 E_leaf pageAB).take 1 ++ (slot_recs P64 E_leaf pageAB).drop 2 ∧
      PageWF P64 E_leaf (move_records P64 E_leaf pageA 1 pageAB 1 1).1 ∧
      PageWF P64 E_leaf (move_records P64 E_leaf pageA 1 pageAB 1 1).2.1 ∧
      List.Pairwise (fun a b => str_lt a.1 b.1 = true)
        (slot_recs P64 E_leaf (move_records P64 E_leaf pageA 1 pageAB 1 1).1) ∧
      List.Pairwise (fun a b => str_lt a.1 b.1 = true)
        (slot_recs P64 E_leaf (move_records P64 E_leaf pageA 1 pageAB 1 1).2.1)) ∧
    ((move_records P64 E_leaf pageA 1 pageAB 1 1).2.2 = false →
      (move_records P64 E_leaf pageA 1 pageAB 1 1).2.1 = pageAB ∧
      PageEquiv P64 (move_records P64 E_leaf pageA 1 pageAB 1 1).1 pageA) :=
  C5_move_records_atomic P64 E_leaf str_lt encOK_leaf (by decide) pageA pageAB 1 1 1
    (by unfold PageWF; decide) (by unfold PageWF; decide) (by decide) (by decide) (by decide)
    (by decide) (by decide) (by decide) (by decide)

end foster
